import Mathlib

/-!
Verification of the d-ary SIMD min-heap (`dheap4_simd.hpp` / `dheap4_simd.cpp`).

The development shallow-embeds the heap engine: keys are mathematical integers
(the C++ `int32_t` keys are only compared and moved, never subjected to
arithmetic, so no wraparound can occur), indices are `Nat`, and the two sift
loops are written with an explicit fuel argument that provably dominates their
iteration count (the current index strictly decreases in sift-up and strictly
increases in sift-down), so that every definition evaluates by kernel
reduction.
-/

set_option linter.unusedVariables false
set_option linter.unnecessarySeqFocus false

namespace DHeapSimd

/-- Compile-time configuration: arity `kD` (`DHEAP_ARITY`), SIMD policy
`kSimdPolicy` (`DHEAP_SIMD_POLICY`: 0 = never, 1 = always, 2 = hybrid) and the
two hybrid thresholds (`DHEAP_SIMD_BUILD_MIN_ARITY`, `DHEAP_SIMD_POP_MIN_SIZE`).
The two proof fields record the static_assert checks of the header. -/
structure Config where
  kD : Nat
  kSimdPolicy : Nat
  kBuildMinArity : Nat
  kPopMinSize : Nat
  kD_ge_two : 2 ≤ kD
  kSimdPolicy_le : kSimdPolicy ≤ 2

/-- The default configuration of the header: arity 4, hybrid policy,
build-min-arity 8, pop-min-size 4194304. -/
def defaultConfig : Config := ⟨4, 2, 8, 4194304, by norm_num, by norm_num⟩

/-- `parent(i) = (i-1)/kD` (truncating division; only ever used at `i > 0`). -/
def parent (cfg : Config) (i : Nat) : Nat := (i - 1) / cfg.kD

/-- `first_child(i) = i*kD + 1`. -/
def first_child (cfg : Config) (i : Nat) : Nat := i * cfg.kD + 1

/-- `__builtin_ctz` on a 32-bit value, modelled with 32 division steps. -/
def ctzAux : Nat → Nat → Nat
  | 0, _ => 0
  | fuel + 1, m => if m % 2 = 1 then 0 else ctzAux fuel (m / 2) + 1

/-- Count of trailing zero bits (total; its argument is guarded against 0 at
the call site, exactly as in the source). -/
def ctz (m : Nat) : Nat := ctzAux 32 m

/-- `vminvq_s32` / the `vpmin` fallback: the minimum across four lanes. -/
def neon_min4 (a0 a1 a2 a3 : Int) : Int := min (min a0 a1) (min a2 a3)

/-- `neon_equal_mask4`: bit `j` of the result is set iff lane `j` equals the
target (the lane bits 1, 2, 4, 8 of matching lanes are summed). -/
def neon_equal_mask4 (a0 a1 a2 a3 target : Int) : Nat :=
  (if a0 = target then 1 else 0) + (if a1 = target then 2 else 0) +
    (if a2 = target then 4 else 0) + (if a3 = target then 8 else 0)

/-- `neon_first_equal_index4`: lowest lane equal to the target (0 when no lane
matches, which never happens at the call sites). -/
def neon_first_equal_index4 (a0 a1 a2 a3 target : Int) : Nat :=
  let mask := neon_equal_mask4 a0 a1 a2 a3 target
  if mask = 0 then 0 else ctz mask

/-- The SIMD child minimum over a full 4-child block starting at `c`: reduce to
the block minimum, then locate the lowest lane equal to it. -/
def neonChildMin4 (keys : List Int) (c : Nat) : Nat × Int :=
  let a0 := keys.getD c 0
  let a1 := keys.getD (c + 1) 0
  let a2 := keys.getD (c + 2) 0
  let a3 := keys.getD (c + 3) 0
  let m := neon_min4 a0 a1 a2 a3
  (c + neon_first_equal_index4 a0 a1 a2 a3 m, m)

/-- The SIMD child minimum over a full 8-child block: two 4-lane reductions,
the first block winning ties. -/
def neonChildMin8 (keys : List Int) (c : Nat) : Nat × Int :=
  let min0 := neon_min4 (keys.getD c 0) (keys.getD (c + 1) 0)
    (keys.getD (c + 2) 0) (keys.getD (c + 3) 0)
  let min1 := neon_min4 (keys.getD (c + 4) 0) (keys.getD (c + 5) 0)
    (keys.getD (c + 6) 0) (keys.getD (c + 7) 0)
  if min1 < min0 then
    (c + 4 + neon_first_equal_index4 (keys.getD (c + 4) 0) (keys.getD (c + 5) 0)
      (keys.getD (c + 6) 0) (keys.getD (c + 7) 0) min1, min1)
  else
    (c + neon_first_equal_index4 (keys.getD c 0) (keys.getD (c + 1) 0)
      (keys.getD (c + 2) 0) (keys.getD (c + 3) 0) min0, min0)

/-- The SIMD child minimum over a full 16-child block: four 4-lane reductions,
a reduction over the four block minima, then a search inside the lowest
winning block. -/
def neonChildMin16 (keys : List Int) (c : Nat) : Nat × Int :=
  let min0 := neon_min4 (keys.getD c 0) (keys.getD (c + 1) 0)
    (keys.getD (c + 2) 0) (keys.getD (c + 3) 0)
  let min1 := neon_min4 (keys.getD (c + 4) 0) (keys.getD (c + 5) 0)
    (keys.getD (c + 6) 0) (keys.getD (c + 7) 0)
  let min2 := neon_min4 (keys.getD (c + 8) 0) (keys.getD (c + 9) 0)
    (keys.getD (c + 10) 0) (keys.getD (c + 11) 0)
  let min3 := neon_min4 (keys.getD (c + 12) 0) (keys.getD (c + 13) 0)
    (keys.getD (c + 14) 0) (keys.getD (c + 15) 0)
  let best := neon_min4 min0 min1 min2 min3
  let blockIdx := neon_first_equal_index4 min0 min1 min2 min3 best
  if blockIdx = 0 then
    (c + neon_first_equal_index4 (keys.getD c 0) (keys.getD (c + 1) 0)
      (keys.getD (c + 2) 0) (keys.getD (c + 3) 0) best, best)
  else if blockIdx = 1 then
    (c + 4 + neon_first_equal_index4 (keys.getD (c + 4) 0) (keys.getD (c + 5) 0)
      (keys.getD (c + 6) 0) (keys.getD (c + 7) 0) best, best)
  else if blockIdx = 2 then
    (c + 8 + neon_first_equal_index4 (keys.getD (c + 8) 0) (keys.getD (c + 9) 0)
      (keys.getD (c + 10) 0) (keys.getD (c + 11) 0) best, best)
  else
    (c + 12 + neon_first_equal_index4 (keys.getD (c + 12) 0) (keys.getD (c + 13) 0)
      (keys.getD (c + 14) 0) (keys.getD (c + 15) 0) best, best)

/-- The scalar linear scan of sift_down: fold over the child indices
`c+1 .. end-1`, keeping the first-encountered minimum; `k` counts the
remaining loop iterations. -/
def scanMin (keys : List Int) : Nat → Nat → Int → Nat → Nat × Int
  | _, mi, mv, 0 => (mi, mv)
  | j, mi, mv, k + 1 =>
    if keys.getD j 0 < mv then scanMin keys (j + 1) j (keys.getD j 0) k
    else scanMin keys (j + 1) mi mv k

/-- The scalar child minimum over the index range `[c, e)` (with
`e = min(c + kArity, n)` at the call site): first-encountered minimum wins. -/
def scalarChildMin (keys : List Int) (c e : Nat) : Nat × Int :=
  scanMin keys (c + 1) c (keys.getD c 0) (e - (c + 1))

/-- The policy gate of sift_down: decides whether the SIMD comparator may be
used at the current node `i` of a heap of size `n`. -/
def allowSimd (cfg : Config) (heapifyPhase : Bool) (i n : Nat) : Bool :=
  if cfg.kSimdPolicy = 1 then true
  else if cfg.kSimdPolicy = 2 then
    if heapifyPhase then
      decide (cfg.kBuildMinArity ≤ cfg.kD) && decide (i ≤ n / (cfg.kD * cfg.kD))
    else
      decide (16 ≤ cfg.kD) && decide (i = 0) && decide (cfg.kPopMinSize ≤ n)
  else false

/-- One child-minimum computation of sift_down: a SIMD block comparator when
the gate allows, the arity matches a SIMD width and a full block of children is
in range; the scalar scan otherwise. -/
def childMin (cfg : Config) (allow : Bool) (keys : List Int) (c n : Nat) : Nat × Int :=
  if allow = true ∧ cfg.kD = 4 ∧ c + 3 < n then neonChildMin4 keys c
  else if allow = true ∧ cfg.kD = 8 ∧ c + 7 < n then neonChildMin8 keys c
  else if allow = true ∧ cfg.kD = 16 ∧ c + 15 < n then neonChildMin16 keys c
  else scalarChildMin keys c (min (c + cfg.kD) n)

/-- The sift_up loop, holding the inserted key/slot pair; `fuel` bounds the
number of iterations (the index strictly decreases, so initial fuel `i`
suffices; at fuel 0 the index is necessarily 0 and the fallback branch
coincides with the loop exit). -/
def siftUpGo (cfg : Config) (key : Int) (slot : Nat) :
    Nat → List Int → List Nat → Nat → List Int × List Nat
  | 0, keys, slots, i => (keys.set i key, slots.set i slot)
  | fuel + 1, keys, slots, i =>
    if 0 < i then
      let p := parent cfg i
      if key < keys.getD p 0 then
        siftUpGo cfg key slot fuel
          (keys.set i (keys.getD p 0)) (slots.set i (slots.getD p 0)) p
      else (keys.set i key, slots.set i slot)
    else (keys.set i key, slots.set i slot)

/-- `sift_up(i)`: read the key/slot pair at `i`, walk towards the root moving
strictly larger parents down, and place the pair at the final hole. -/
def sift_up (cfg : Config) (keys : List Int) (slots : List Nat) (i : Nat) :
    List Int × List Nat :=
  siftUpGo cfg (keys.getD i 0) (slots.getD i 0) i keys slots i

/-- The sift_down loop, holding the sinking key/slot pair; `fuel` bounds the
number of iterations (the chosen child index strictly increases while staying
below `keys.length`, so initial fuel `keys.length` suffices; at fuel 0 the
first child is necessarily out of range and the fallback branch coincides with
the loop exit). -/
def siftDownGo (cfg : Config) (heapifyPhase : Bool) (key : Int) (slot : Nat) :
    Nat → List Int → List Nat → Nat → List Int × List Nat
  | 0, keys, slots, i => (keys.set i key, slots.set i slot)
  | fuel + 1, keys, slots, i =>
    let n := keys.length
    let c := first_child cfg i
    if c < n then
      let a := allowSimd cfg heapifyPhase i n
      let mv := childMin cfg a keys c n
      if mv.2 < key then
        siftDownGo cfg heapifyPhase key slot fuel
          (keys.set i (keys.getD mv.1 0)) (slots.set i (slots.getD mv.1 0)) mv.1
      else (keys.set i key, slots.set i slot)
    else (keys.set i key, slots.set i slot)

/-- `sift_down(i, heapify_phase)`: read the key/slot pair at `i`, sink it below
every strictly smaller minimum child, and place the pair at the final hole. -/
def sift_down (cfg : Config) (keys : List Int) (slots : List Nat) (i : Nat)
    (heapifyPhase : Bool) : List Int × List Nat :=
  siftDownGo cfg heapifyPhase (keys.getD i 0) (slots.getD i 0) keys.length keys slots i

/-- The heap state: key array, parallel slot (handle) array, free-slot pool and
next-slot counter (payload storage is disabled in the default build,
`DHEAP_NODE_PAYLOAD_BYTES = 0`). -/
structure DHeap4Simd where
  heap_keys_ : List Int
  heap_slots_ : List Nat
  free_slots_ : List Nat
  next_slot_ : Nat
deriving DecidableEq

/-- A freshly default-constructed heap. -/
def emptyHeap : DHeap4Simd := ⟨[], [], [], 0⟩

/-- The one error condition of the interface: `top()`/`pop()` on an empty
heap (`std::out_of_range("heap is empty")`). -/
inductive HeapError where
  | emptyContainer
deriving DecidableEq

namespace DHeap4Simd

/-- `size()`: the length of the key array. -/
def size (h : DHeap4Simd) : Nat := h.heap_keys_.length

/-- `empty()`: whether the key array is empty. -/
def empty (h : DHeap4Simd) : Bool := h.heap_keys_.isEmpty

/-- `top()`: the root key, or the EmptyContainer failure on an empty heap. -/
def top (h : DHeap4Simd) : Except HeapError Int :=
  if h.empty then .error .emptyContainer else .ok (h.heap_keys_.getD 0 0)

/-- `acquire_slot()` acting on the `(free_slots_, next_slot_)` component:
reuse the back of the free pool when non-empty, otherwise mint `next_slot_`
and increment the counter.  Returns the slot and the updated component. -/
def acquire_slot (free : List Nat) (next : Nat) : Nat × List Nat × Nat :=
  match free.getLast? with
  | some s => (s, free.dropLast, next)
  | none => (next, free, next + 1)

/-- `release_slot(slot)`: append the slot to the free pool. -/
def release_slot (free : List Nat) (slot : Nat) : List Nat := free ++ [slot]

/-- `push(v)`: append the key and a fresh/reused slot, then sift up from the
new last index. -/
def push (cfg : Config) (h : DHeap4Simd) (v : Int) : DHeap4Simd :=
  let a := acquire_slot h.free_slots_ h.next_slot_
  let keys := h.heap_keys_ ++ [v]
  let slots := h.heap_slots_ ++ [a.1]
  let r := sift_up cfg keys slots (keys.length - 1)
  ⟨r.1, r.2, a.2.1, a.2.2⟩

/-- `pop()`: fail on an empty heap; on a singleton drop both arrays and
release the root slot; otherwise move the last key/slot pair to the root,
shrink, release the old root slot and sift down from index 0 in pop phase. -/
def pop (cfg : Config) (h : DHeap4Simd) : Except HeapError DHeap4Simd :=
  if h.empty then .error .emptyContainer
  else
    let rootSlot := h.heap_slots_.getD 0 0
    if h.heap_keys_.length = 1 then
      .ok ⟨h.heap_keys_.dropLast, h.heap_slots_.dropLast,
        release_slot h.free_slots_ rootSlot, h.next_slot_⟩
    else
      let keys1 := (h.heap_keys_.set 0
        (h.heap_keys_.getD (h.heap_keys_.length - 1) 0)).dropLast
      let slots1 := (h.heap_slots_.set 0
        (h.heap_slots_.getD (h.heap_slots_.length - 1) 0)).dropLast
      let r := sift_down cfg keys1 slots1 0 false
      .ok ⟨r.1, r.2, release_slot h.free_slots_ rootSlot, h.next_slot_⟩

/-- The state of the C++ object after a `pop()` call: unchanged when the call
threw, the popped state otherwise. -/
def popTotal (cfg : Config) (h : DHeap4Simd) : DHeap4Simd :=
  match pop cfg h with
  | .ok h2 => h2
  | .error _ => h

/-- `clear()`: reset every array and the slot counter. -/
def clear (h : DHeap4Simd) : DHeap4Simd := ⟨[], [], [], 0⟩

/-- `reserve(n)`: a pure capacity hint with no effect on the logical state. -/
def reserve (h : DHeap4Simd) (n : Nat) : DHeap4Simd := h

/-- The slot-minting loop of the bulk constructor: `k` calls of
`acquire_slot`, appending each slot. -/
def mintLoop : Nat → List Nat → List Nat → Nat → List Nat × List Nat × Nat
  | 0, slots, free, next => (slots, free, next)
  | k + 1, slots, free, next =>
    let a := acquire_slot free next
    mintLoop k (slots ++ [a.1]) a.2.1 a.2.2

/-- The Floyd heapify loop of the bulk constructor: sift down the indices
`i-1, i-2, ..., 0` in build phase. -/
def buildLoop (cfg : Config) : Nat → List Int → List Nat → List Int × List Nat
  | 0, keys, slots => (keys, slots)
  | i + 1, keys, slots =>
    let r := sift_down cfg keys slots i true
    buildLoop cfg i r.1 r.2

/-- The bulk constructor `DHeap4Simd(std::vector<value_type> data)`: adopt the
keys, mint one slot per key, and when more than one key is present run Floyd
heapify from `parent(n-1)` down to the root. -/
def build (cfg : Config) (data : List Int) : DHeap4Simd :=
  let m := mintLoop data.length [] [] 0
  if 1 < data.length then
    let r := buildLoop cfg (parent cfg (data.length - 1) + 1) data m.1
    ⟨r.1, r.2, m.2.1, m.2.2⟩
  else ⟨data, m.1, m.2.1, m.2.2⟩

/-- Push every element of a list in order. -/
def pushAll (cfg : Config) (h : DHeap4Simd) (l : List Int) : DHeap4Simd :=
  l.foldl (push cfg) h

/-- `m` consecutive `pop()` calls, propagating the first failure. -/
def popN (cfg : Config) : Nat → DHeap4Simd → Except HeapError DHeap4Simd
  | 0, h => .ok h
  | m + 1, h =>
    match pop cfg h with
    | .ok h2 => popN cfg m h2
    | .error e => .error e

/-- The drain loop: read `top()` then `pop()` until the heap is empty; `fuel`
bounds the iterations (each successful pop shrinks the heap by one). -/
def drainGo (cfg : Config) : Nat → DHeap4Simd → List Int
  | 0, _ => []
  | fuel + 1, h =>
    if h.empty then []
    else h.heap_keys_.getD 0 0 :: drainGo cfg fuel (popTotal cfg h)

/-- Repeatedly read `top()` then `pop()` until the heap is empty. -/
def drain (cfg : Config) (h : DHeap4Simd) : List Int := drainGo cfg h.size h

end DHeap4Simd

/-- A public mutating operation of the interface. -/
inductive Op where
  | push (v : Int)
  | pop
  | clear
  | reserve (n : Nat)
deriving DecidableEq

/-- Apply one public operation to a heap state (a failing `pop` leaves the
state unchanged). -/
def applyOp (cfg : Config) (h : DHeap4Simd) : Op → DHeap4Simd
  | .push v => DHeap4Simd.push cfg h v
  | .pop => DHeap4Simd.popTotal cfg h
  | .clear => h.clear
  | .reserve n => h.reserve n

/-- Run a sequence of public operations from a freshly constructed heap. -/
def runOps (cfg : Config) (l : List Op) : DHeap4Simd :=
  l.foldl (applyOp cfg) DHeapSimd.emptyHeap

/-- Heap states reachable through the public interface from a fresh or
bulk-constructed heap. -/
inductive Reachable (cfg : Config) : DHeap4Simd → Prop where
  | protected empty : Reachable cfg emptyHeap
  | protected build (data : List Int) : Reachable cfg (DHeap4Simd.build cfg data)
  | protected push {h} (v : Int) : Reachable cfg h →
      Reachable cfg (DHeap4Simd.push cfg h v)
  | protected pop {h h2} : Reachable cfg h → DHeap4Simd.pop cfg h = .ok h2 →
      Reachable cfg h2
  | protected clear {h} : Reachable cfg h → Reachable cfg h.clear
  | protected reserve {h} (n : Nat) : Reachable cfg h → Reachable cfg (h.reserve n)

/-- The d-ary heap-order property restricted to pairs whose parent index is at
least `l`: `keys[parent j] <= keys[j]` for every `j > 0` with `parent j >= l`. -/
def heapFrom (cfg : Config) (keys : List Int) (l : Nat) : Prop :=
  ∀ j, j < keys.length → 0 < j → l ≤ parent cfg j →
    keys.getD (parent cfg j) 0 ≤ keys.getD j 0

/-- The full d-ary heap-order property. -/
def heapProp (cfg : Config) (keys : List Int) : Prop := heapFrom cfg keys 0

instance (cfg : Config) (keys : List Int) (l : Nat) : Decidable (heapFrom cfg keys l) :=
  Nat.decidableBallLT _ _

instance (cfg : Config) (keys : List Int) : Decidable (heapProp cfg keys) :=
  Nat.decidableBallLT _ _

/-- The slot-bookkeeping invariant: the slot array is as long as the key array,
and the live slots together with the free pool are exactly the minted slots
`0 .. next_slot_ - 1`, each once. -/
def slotInv (h : DHeap4Simd) : Prop :=
  h.heap_slots_.length = h.heap_keys_.length ∧
    (h.heap_slots_ ++ h.free_slots_).Perm (List.range h.next_slot_)

/-- `(m, v)` is the first-encountered minimum of `keys` over the index range
`[c, e)`: `v` lives at `m`, bounds every key of the range, and strictly bounds
every key before `m`. -/
def IsChampion (keys : List Int) (c e m : Nat) (v : Int) : Prop :=
  c ≤ m ∧ m < e ∧ keys.getD m 0 = v ∧
    (∀ t, c ≤ t → t < e → v ≤ keys.getD t 0) ∧
    (∀ t, c ≤ t → t < m → v < keys.getD t 0)

/-! ### Generic list helpers -/

theorem getD_set_eq {α : Type} (l : List α) (i : Nat) (x d : α) (h : i < l.length) :
    (l.set i x).getD i d = x := by
  rw [List.getD_eq_getElem _ _ (by simpa using h)]
  exact List.getElem_set_self (h := by simpa using h)

theorem getD_set_ne {α : Type} (l : List α) (i j : Nat) (x d : α) (h : i ≠ j) :
    (l.set i x).getD j d = l.getD j d := by
  simp [List.getElem?_set_ne h]

theorem count_set {α : Type} [DecidableEq α] (l : List α) (i : Nat) (x y : α)
    (h : i < l.length) :
    (l.set i x).count y + (if l[i] = y then 1 else 0) =
      l.count y + (if x = y then 1 else 0) := by
  rw [List.set_eq_take_cons_drop x h]
  conv_rhs => rw [← List.take_append_drop i l, List.drop_eq_getElem_cons h]
  rw [List.count_append, List.count_append, List.count_cons, List.count_cons]
  simp only [beq_iff_eq]
  split <;> split <;> omega

theorem set_set_perm {α : Type} [DecidableEq α] (l : List α) {i p : Nat} (x : α)
    (hi : i < l.length) (hp : p < l.length) (hne : p ≠ i) :
    ((l.set i l[p]).set p x).Perm (l.set i x) := by
  rw [List.perm_iff_count]
  intro y
  have h1 := count_set (l.set i l[p]) p x y (by simpa using hp)
  have h2 := count_set l i (l[p]) y hi
  have h3 := count_set l i x y hi
  rw [List.getElem_set_ne (Ne.symm hne)] at h1
  omega

/-- Writing back the value already stored at an in-range index is a no-op. -/
theorem set_getD_self {α : Type} (l : List α) (i : Nat) (d : α) (h : i < l.length) :
    l.set i (l.getD i d) = l := by
  apply List.ext_getElem?
  intro n
  by_cases hn : i = n
  · subst hn
    rw [List.getElem?_set_self', List.getD_eq_getElem _ _ h, List.getElem?_eq_getElem h]
    rfl
  · rw [List.getElem?_set_ne hn]

/-! ### Basic index arithmetic -/

theorem parent_lt (cfg : Config) {i : Nat} (h : 0 < i) : parent cfg i < i :=
  lt_of_le_of_lt (Nat.div_le_self _ _) (by omega)

theorem lt_first_child (cfg : Config) (i : Nat) : i < first_child cfg i := by
  have : i * 1 ≤ i * cfg.kD := Nat.mul_le_mul_left i (by have := cfg.kD_ge_two; omega)
  unfold first_child; omega

theorem parent_first_child (cfg : Config) (i k : Nat) (hk : k < cfg.kD) :
    parent cfg (first_child cfg i + k) = i := by
  have hd : 0 < cfg.kD := by have := cfg.kD_ge_two; omega
  unfold parent first_child
  have h1 : i * cfg.kD + 1 + k - 1 = cfg.kD * i + k := by rw [Nat.mul_comm]; omega
  rw [h1, Nat.mul_add_div hd, Nat.div_eq_of_lt hk]
  omega

/-! ### The child-minimum comparators: first-encountered-minimum theory -/

theorem neon_min4_le (a0 a1 a2 a3 : Int) :
    neon_min4 a0 a1 a2 a3 ≤ a0 ∧ neon_min4 a0 a1 a2 a3 ≤ a1 ∧
      neon_min4 a0 a1 a2 a3 ≤ a2 ∧ neon_min4 a0 a1 a2 a3 ≤ a3 := by
  unfold neon_min4
  refine ⟨?_, ?_, ?_, ?_⟩ <;> simp [min_le_iff]

theorem neon_min4_eq_or (a0 a1 a2 a3 : Int) :
    neon_min4 a0 a1 a2 a3 = a0 ∨ neon_min4 a0 a1 a2 a3 = a1 ∨
      neon_min4 a0 a1 a2 a3 = a2 ∨ neon_min4 a0 a1 a2 a3 = a3 := by
  unfold neon_min4
  rcases min_choice (min a0 a1) (min a2 a3) with h | h <;> rw [h]
  · rcases min_choice a0 a1 with h1 | h1 <;> rw [h1] <;> tauto
  · rcases min_choice a2 a3 with h1 | h1 <;> rw [h1] <;> tauto

theorem neon_min4_attained (a0 a1 a2 a3 : Int) :
    a0 = neon_min4 a0 a1 a2 a3 ∨ a1 = neon_min4 a0 a1 a2 a3 ∨
      a2 = neon_min4 a0 a1 a2 a3 ∨ a3 = neon_min4 a0 a1 a2 a3 := by
  rcases neon_min4_eq_or a0 a1 a2 a3 with h | h | h | h
  · exact Or.inl h.symm
  · exact Or.inr (Or.inl h.symm)
  · exact Or.inr (Or.inr (Or.inl h.symm))
  · exact Or.inr (Or.inr (Or.inr h.symm))

/-- `neon_first_equal_index4` selects the lowest lane equal to an attained
target. -/
theorem first_equal_cases (a0 a1 a2 a3 t : Int)
    (hat : a0 = t ∨ a1 = t ∨ a2 = t ∨ a3 = t) :
    (neon_first_equal_index4 a0 a1 a2 a3 t = 0 ∧ a0 = t) ∨
      (neon_first_equal_index4 a0 a1 a2 a3 t = 1 ∧ a0 ≠ t ∧ a1 = t) ∨
      (neon_first_equal_index4 a0 a1 a2 a3 t = 2 ∧ a0 ≠ t ∧ a1 ≠ t ∧ a2 = t) ∨
      (neon_first_equal_index4 a0 a1 a2 a3 t = 3 ∧ a0 ≠ t ∧ a1 ≠ t ∧ a2 ≠ t ∧ a3 = t) := by
  unfold neon_first_equal_index4 neon_equal_mask4
  by_cases h0 : a0 = t <;> by_cases h1 : a1 = t <;> by_cases h2 : a2 = t <;>
      by_cases h3 : a3 = t <;>
    simp [h0, h1, h2, h3, ctz, ctzAux] <;> tauto

/-- Two first-encountered minima of the same range agree. -/
theorem IsChampion.unique {keys : List Int} {c e m1 m2 : Nat} {v1 v2 : Int}
    (h1 : IsChampion keys c e m1 v1) (h2 : IsChampion keys c e m2 v2) :
    m1 = m2 ∧ v1 = v2 := by
  obtain ⟨hc1, he1, hg1, hall1, hst1⟩ := h1
  obtain ⟨hc2, he2, hg2, hall2, hst2⟩ := h2
  have hv12 : v1 ≤ v2 := hg2 ▸ hall1 m2 hc2 he2
  have hv21 : v2 ≤ v1 := hg1 ▸ hall2 m1 hc1 he1
  rcases Nat.lt_trichotomy m1 m2 with hlt | heq | hgt
  · have := hst2 m1 hc1 hlt; rw [hg1] at this; omega
  · have : v1 = v2 := by rw [← hg1, ← hg2, heq]
    exact ⟨heq, this⟩
  · have := hst1 m2 hc2 hgt; rw [hg2] at this; omega

/-- Extending the range of a first-encountered minimum: strictly larger keys
before, weakly larger keys after. -/
theorem IsChampion.extend {keys : List Int} {c2 e2 m : Nat} {v : Int}
    (h : IsChampion keys c2 e2 m v) {c e : Nat} (hc : c ≤ c2) (he : e2 ≤ e)
    (hlow : ∀ t, c ≤ t → t < c2 → v < keys.getD t 0)
    (hup : ∀ t, e2 ≤ t → t < e → v ≤ keys.getD t 0) :
    IsChampion keys c e m v := by
  obtain ⟨hc2m, hme2, hg, hall, hst⟩ := h
  refine ⟨by omega, by omega, hg, ?_, ?_⟩
  · intro t ht1 ht2
    by_cases hlo : t < c2
    · exact le_of_lt (hlow t ht1 hlo)
    · by_cases hhi : t < e2
      · exact hall t (by omega) hhi
      · exact hup t (by omega) ht2
  · intro t ht1 ht2
    by_cases hlo : t < c2
    · exact hlow t ht1 hlo
    · exact hst t (by omega) ht2

/-- Combining first-encountered minima of adjacent ranges: the strictly
smaller later minimum wins, ties go to the earlier range. -/
theorem IsChampion.append {keys : List Int} {c e1 e2 m1 m2 : Nat} {v1 v2 : Int}
    (h1 : IsChampion keys c e1 m1 v1) (h2 : IsChampion keys e1 e2 m2 v2) :
    IsChampion keys c e2 (if v2 < v1 then m2 else m1) (if v2 < v1 then v2 else v1) := by
  obtain ⟨hc1, he1, hg1, hall1, hst1⟩ := h1
  obtain ⟨hc2, he2, hg2, hall2, hst2⟩ := h2
  by_cases hv : v2 < v1
  · rw [if_pos hv, if_pos hv]
    refine ⟨by omega, he2, hg2, ?_, ?_⟩
    · intro t ht1 ht2
      by_cases hlo : t < e1
      · exact le_of_lt (lt_of_lt_of_le hv (hall1 t ht1 hlo))
      · exact hall2 t (by omega) ht2
    · intro t ht1 ht2
      by_cases hlo : t < e1
      · exact lt_of_lt_of_le hv (hall1 t ht1 hlo)
      · exact hst2 t (by omega) ht2
  · rw [if_neg hv, if_neg hv]
    refine ⟨hc1, by omega, hg1, ?_, ?_⟩
    · intro t ht1 ht2
      by_cases hlo : t < e1
      · exact hall1 t ht1 hlo
      · exact le_trans (by omega) (hall2 t (by omega) ht2)
    · intro t ht1 ht2
      exact hst1 t ht1 ht2

/-- The scalar scan loop extends a running first-encountered minimum of
`[c, j)` to one of `[c, j + k)`. -/
theorem scanMin_champion (keys : List Int) (c : Nat) :
    ∀ (k j mi : Nat) (mv : Int), c ≤ mi → mi < j → keys.getD mi 0 = mv →
      (∀ t, c ≤ t → t < j → mv ≤ keys.getD t 0) →
      (∀ t, c ≤ t → t < mi → mv < keys.getD t 0) →
      IsChampion keys c (j + k) (scanMin keys j mi mv k).1 (scanMin keys j mi mv k).2
  | 0, j, mi, mv, h1, h2, h3, h4, h5 => by
    simp only [scanMin]
    exact ⟨h1, by omega, h3, fun t ht1 ht2 => h4 t ht1 (by omega), h5⟩
  | k + 1, j, mi, mv, h1, h2, h3, h4, h5 => by
    rw [scanMin]
    by_cases hlt : keys.getD j 0 < mv
    · rw [if_pos hlt]
      have hrec := scanMin_champion keys c k (j + 1) j (keys.getD j 0) (by omega)
        (by omega) rfl
        (fun t ht1 ht2 => by
          by_cases htj : t < j
          · exact le_of_lt (lt_of_lt_of_le hlt (h4 t ht1 htj))
          · have : t = j := by omega
            subst this; exact le_refl _)
        (fun t ht1 ht2 => lt_of_lt_of_le hlt (h4 t ht1 ht2))
      have hE : j + 1 + k = j + (k + 1) := by omega
      rw [hE] at hrec
      exact hrec
    · rw [if_neg hlt]
      have hrec := scanMin_champion keys c k (j + 1) mi mv h1 (by omega) h3
        (fun t ht1 ht2 => by
          by_cases htj : t < j
          · exact h4 t ht1 htj
          · have : t = j := by omega
            subst this; omega)
        h5
      have hE : j + 1 + k = j + (k + 1) := by omega
      rw [hE] at hrec
      exact hrec

/-- The scalar child minimum is the first-encountered minimum of its range. -/
theorem scalarChildMin_champion (keys : List Int) {c e : Nat} (h : c < e) :
    IsChampion keys c e (scalarChildMin keys c e).1 (scalarChildMin keys c e).2 := by
  unfold scalarChildMin
  have hrec := scanMin_champion keys c (e - (c + 1)) (c + 1) c (keys.getD c 0)
    (le_refl c) (by omega) rfl
    (fun t ht1 ht2 => by
      have : t = c := by omega
      subst this; exact le_refl _)
    (fun t ht1 ht2 => by omega)
  have hE : c + 1 + (e - (c + 1)) = e := by omega
  rw [hE] at hrec
  exact hrec

/-- A lane search with an attained lower-bound target yields the
first-encountered minimum of its 4-element block. -/
theorem first_equal_champion (keys : List Int) (b : Nat) (a0 a1 a2 a3 t : Int)
    (h0 : keys.getD b 0 = a0) (h1 : keys.getD (b + 1) 0 = a1)
    (h2 : keys.getD (b + 2) 0 = a2) (h3 : keys.getD (b + 3) 0 = a3)
    (hle0 : t ≤ a0) (hle1 : t ≤ a1) (hle2 : t ≤ a2) (hle3 : t ≤ a3)
    (hat : a0 = t ∨ a1 = t ∨ a2 = t ∨ a3 = t) :
    IsChampion keys b (b + 4) (b + neon_first_equal_index4 a0 a1 a2 a3 t) t := by
  have hall : ∀ s, b ≤ s → s < b + 4 → t ≤ keys.getD s 0 := by
    intro s hs1 hs2
    have hs : s = b ∨ s = b + 1 ∨ s = b + 2 ∨ s = b + 3 := by omega
    rcases hs with rfl | rfl | rfl | rfl
    · rw [h0]; exact hle0
    · rw [h1]; exact hle1
    · rw [h2]; exact hle2
    · rw [h3]; exact hle3
  rcases first_equal_cases a0 a1 a2 a3 t hat with ⟨hk, hq⟩ | ⟨hk, hn0, hq⟩ |
    ⟨hk, hn0, hn1, hq⟩ | ⟨hk, hn0, hn1, hn2, hq⟩ <;> rw [hk]
  · refine ⟨by omega, by omega, ?_, hall, fun s hs1 hs2 => by omega⟩
    simp only [Nat.add_zero]
    rw [h0]; exact hq
  · refine ⟨by omega, by omega, by rw [h1]; exact hq, hall, ?_⟩
    intro s hs1 hs2
    have hs : s = b := by omega
    subst hs
    rw [h0]
    exact lt_of_le_of_ne hle0 (Ne.symm hn0)
  · refine ⟨by omega, by omega, by rw [h2]; exact hq, hall, ?_⟩
    intro s hs1 hs2
    have hs : s = b ∨ s = b + 1 := by omega
    rcases hs with rfl | rfl
    · rw [h0]; exact lt_of_le_of_ne hle0 (Ne.symm hn0)
    · rw [h1]; exact lt_of_le_of_ne hle1 (Ne.symm hn1)
  · refine ⟨by omega, by omega, by rw [h3]; exact hq, hall, ?_⟩
    intro s hs1 hs2
    have hs : s = b ∨ s = b + 1 ∨ s = b + 2 := by omega
    rcases hs with rfl | rfl | rfl
    · rw [h0]; exact lt_of_le_of_ne hle0 (Ne.symm hn0)
    · rw [h1]; exact lt_of_le_of_ne hle1 (Ne.symm hn1)
    · rw [h2]; exact lt_of_le_of_ne hle2 (Ne.symm hn2)

/-- The 4-wide SIMD comparator yields the first-encountered minimum of its
block. -/
theorem neonChildMin4_champion (keys : List Int) (c : Nat) :
    IsChampion keys c (c + 4) (neonChildMin4 keys c).1 (neonChildMin4 keys c).2 := by
  have hle := neon_min4_le (keys.getD c 0) (keys.getD (c + 1) 0) (keys.getD (c + 2) 0)
    (keys.getD (c + 3) 0)
  exact first_equal_champion keys c _ _ _ _ _ rfl rfl rfl rfl hle.1 hle.2.1 hle.2.2.1
    hle.2.2.2 (neon_min4_attained _ _ _ _)

/-- The 8-wide SIMD comparator yields the first-encountered minimum of its
block. -/
theorem neonChildMin8_champion (keys : List Int) (c : Nat) :
    IsChampion keys c (c + 8) (neonChildMin8 keys c).1 (neonChildMin8 keys c).2 := by
  simp only [neonChildMin8]
  set m0 := neon_min4 (keys.getD c 0) (keys.getD (c + 1) 0) (keys.getD (c + 2) 0)
    (keys.getD (c + 3) 0) with hm0
  set m1 := neon_min4 (keys.getD (c + 4) 0) (keys.getD (c + 5) 0) (keys.getD (c + 6) 0)
    (keys.getD (c + 7) 0) with hm1
  have hl0 := neon_min4_le (keys.getD c 0) (keys.getD (c + 1) 0) (keys.getD (c + 2) 0)
    (keys.getD (c + 3) 0)
  rw [← hm0] at hl0
  have hl1 := neon_min4_le (keys.getD (c + 4) 0) (keys.getD (c + 5) 0) (keys.getD (c + 6) 0)
    (keys.getD (c + 7) 0)
  rw [← hm1] at hl1
  have hat0 := neon_min4_attained (keys.getD c 0) (keys.getD (c + 1) 0) (keys.getD (c + 2) 0)
    (keys.getD (c + 3) 0)
  rw [← hm0] at hat0
  have hat1 := neon_min4_attained (keys.getD (c + 4) 0) (keys.getD (c + 5) 0)
    (keys.getD (c + 6) 0) (keys.getD (c + 7) 0)
  rw [← hm1] at hat1
  by_cases hv : m1 < m0
  · rw [if_pos hv]
    refine IsChampion.extend
      (first_equal_champion keys (c + 4) _ _ _ _ m1 rfl (by norm_num) (by norm_num)
        (by norm_num) hl1.1 hl1.2.1 hl1.2.2.1 hl1.2.2.2 hat1)
      (by omega) (by omega) ?_ ?_
    · intro t ht1 ht2
      have ht : t = c ∨ t = c + 1 ∨ t = c + 2 ∨ t = c + 3 := by omega
      rcases ht with rfl | rfl | rfl | rfl
      · exact lt_of_lt_of_le hv hl0.1
      · exact lt_of_lt_of_le hv hl0.2.1
      · exact lt_of_lt_of_le hv hl0.2.2.1
      · exact lt_of_lt_of_le hv hl0.2.2.2
    · intro t ht1 ht2
      omega
  · rw [if_neg hv]
    refine IsChampion.extend
      (first_equal_champion keys c _ _ _ _ m0 rfl rfl rfl rfl hl0.1 hl0.2.1 hl0.2.2.1
        hl0.2.2.2 hat0)
      (le_refl c) (by omega) ?_ ?_
    · intro t ht1 ht2
      omega
    · intro t ht1 ht2
      have ht : t = c + 4 ∨ t = c + 5 ∨ t = c + 6 ∨ t = c + 7 := by omega
      have hm01 : m0 ≤ m1 := by omega
      rcases ht with rfl | rfl | rfl | rfl
      · exact le_trans hm01 hl1.1
      · exact le_trans hm01 hl1.2.1
      · exact le_trans hm01 hl1.2.2.1
      · exact le_trans hm01 hl1.2.2.2

set_option maxHeartbeats 1000000 in
/-- The 16-wide SIMD comparator yields the first-encountered minimum of its
block. -/
theorem neonChildMin16_champion (keys : List Int) (c : Nat) :
    IsChampion keys c (c + 16) (neonChildMin16 keys c).1 (neonChildMin16 keys c).2 := by
  simp only [neonChildMin16]
  have hl0 := neon_min4_le (keys.getD c 0) (keys.getD (c + 1) 0) (keys.getD (c + 2) 0)
    (keys.getD (c + 3) 0)
  have hl1 := neon_min4_le (keys.getD (c + 4) 0) (keys.getD (c + 5) 0) (keys.getD (c + 6) 0)
    (keys.getD (c + 7) 0)
  have hl2 := neon_min4_le (keys.getD (c + 8) 0) (keys.getD (c + 9) 0) (keys.getD (c + 10) 0)
    (keys.getD (c + 11) 0)
  have hl3 := neon_min4_le (keys.getD (c + 12) 0) (keys.getD (c + 13) 0)
    (keys.getD (c + 14) 0) (keys.getD (c + 15) 0)
  have hat0 := neon_min4_attained (keys.getD c 0) (keys.getD (c + 1) 0) (keys.getD (c + 2) 0)
    (keys.getD (c + 3) 0)
  have hat1 := neon_min4_attained (keys.getD (c + 4) 0) (keys.getD (c + 5) 0)
    (keys.getD (c + 6) 0) (keys.getD (c + 7) 0)
  have hat2 := neon_min4_attained (keys.getD (c + 8) 0) (keys.getD (c + 9) 0)
    (keys.getD (c + 10) 0) (keys.getD (c + 11) 0)
  have hat3 := neon_min4_attained (keys.getD (c + 12) 0) (keys.getD (c + 13) 0)
    (keys.getD (c + 14) 0) (keys.getD (c + 15) 0)
  generalize hm0 : neon_min4 (keys.getD c 0) (keys.getD (c + 1) 0) (keys.getD (c + 2) 0)
    (keys.getD (c + 3) 0) = m0 at hl0 hat0 ⊢
  generalize hm1 : neon_min4 (keys.getD (c + 4) 0) (keys.getD (c + 5) 0)
    (keys.getD (c + 6) 0) (keys.getD (c + 7) 0) = m1 at hl1 hat1 ⊢
  generalize hm2 : neon_min4 (keys.getD (c + 8) 0) (keys.getD (c + 9) 0)
    (keys.getD (c + 10) 0) (keys.getD (c + 11) 0) = m2 at hl2 hat2 ⊢
  generalize hm3 : neon_min4 (keys.getD (c + 12) 0) (keys.getD (c + 13) 0)
    (keys.getD (c + 14) 0) (keys.getD (c + 15) 0) = m3 at hl3 hat3 ⊢
  have hBle := neon_min4_le m0 m1 m2 m3
  have hBat := neon_min4_attained m0 m1 m2 m3
  generalize hbest : neon_min4 m0 m1 m2 m3 = best at hBle hBat ⊢
  rcases first_equal_cases m0 m1 m2 m3 best hBat with ⟨hk, hq⟩ | ⟨hk, hn0, hq⟩ |
    ⟨hk, hn0, hn1, hq⟩ | ⟨hk, hn0, hn1, hn2, hq⟩ <;> rw [hk]
  · rw [if_pos rfl]
    refine IsChampion.extend
      (first_equal_champion keys c _ _ _ _ best rfl rfl rfl rfl
        (hq ▸ hl0.1) (hq ▸ hl0.2.1) (hq ▸ hl0.2.2.1) (hq ▸ hl0.2.2.2)
        (by rcases hat0 with h | h | h | h
            exacts [Or.inl (hq ▸ h), Or.inr (Or.inl (hq ▸ h)),
              Or.inr (Or.inr (Or.inl (hq ▸ h))), Or.inr (Or.inr (Or.inr (hq ▸ h)))]))
      (le_refl c) (by omega) (fun t ht1 ht2 => by omega) ?_
    intro t ht1 ht2
    have ht : t = c + 4 ∨ t = c + 5 ∨ t = c + 6 ∨ t = c + 7 ∨ t = c + 8 ∨ t = c + 9 ∨
      t = c + 10 ∨ t = c + 11 ∨ t = c + 12 ∨ t = c + 13 ∨ t = c + 14 ∨ t = c + 15 := by omega
    rcases ht with rfl | rfl | rfl | rfl | rfl | rfl | rfl | rfl | rfl | rfl | rfl | rfl
    · exact le_trans hBle.2.1 hl1.1
    · exact le_trans hBle.2.1 hl1.2.1
    · exact le_trans hBle.2.1 hl1.2.2.1
    · exact le_trans hBle.2.1 hl1.2.2.2
    · exact le_trans hBle.2.2.1 hl2.1
    · exact le_trans hBle.2.2.1 hl2.2.1
    · exact le_trans hBle.2.2.1 hl2.2.2.1
    · exact le_trans hBle.2.2.1 hl2.2.2.2
    · exact le_trans hBle.2.2.2 hl3.1
    · exact le_trans hBle.2.2.2 hl3.2.1
    · exact le_trans hBle.2.2.2 hl3.2.2.1
    · exact le_trans hBle.2.2.2 hl3.2.2.2
  · rw [if_neg (by norm_num), if_pos rfl]
    have hb0 : best < m0 := lt_of_le_of_ne hBle.1 (Ne.symm hn0)
    refine IsChampion.extend
      (first_equal_champion keys (c + 4) _ _ _ _ best rfl (by norm_num) (by norm_num)
        (by norm_num)
        (hq ▸ hl1.1) (hq ▸ hl1.2.1) (hq ▸ hl1.2.2.1) (hq ▸ hl1.2.2.2)
        (by rcases hat1 with h | h | h | h
            exacts [Or.inl (hq ▸ h), Or.inr (Or.inl (hq ▸ h)),
              Or.inr (Or.inr (Or.inl (hq ▸ h))), Or.inr (Or.inr (Or.inr (hq ▸ h)))]))
      (by omega) (by omega) ?_ ?_
    · intro t ht1 ht2
      have ht : t = c ∨ t = c + 1 ∨ t = c + 2 ∨ t = c + 3 := by omega
      rcases ht with rfl | rfl | rfl | rfl
      · exact lt_of_lt_of_le hb0 hl0.1
      · exact lt_of_lt_of_le hb0 hl0.2.1
      · exact lt_of_lt_of_le hb0 hl0.2.2.1
      · exact lt_of_lt_of_le hb0 hl0.2.2.2
    · intro t ht1 ht2
      have ht : t = c + 8 ∨ t = c + 9 ∨ t = c + 10 ∨ t = c + 11 ∨ t = c + 12 ∨
        t = c + 13 ∨ t = c + 14 ∨ t = c + 15 := by omega
      rcases ht with rfl | rfl | rfl | rfl | rfl | rfl | rfl | rfl
      · exact le_trans hBle.2.2.1 hl2.1
      · exact le_trans hBle.2.2.1 hl2.2.1
      · exact le_trans hBle.2.2.1 hl2.2.2.1
      · exact le_trans hBle.2.2.1 hl2.2.2.2
      · exact le_trans hBle.2.2.2 hl3.1
      · exact le_trans hBle.2.2.2 hl3.2.1
      · exact le_trans hBle.2.2.2 hl3.2.2.1
      · exact le_trans hBle.2.2.2 hl3.2.2.2
  · rw [if_neg (by norm_num), if_neg (by norm_num), if_pos rfl]
    have hb0 : best < m0 := lt_of_le_of_ne hBle.1 (Ne.symm hn0)
    have hb1 : best < m1 := lt_of_le_of_ne hBle.2.1 (Ne.symm hn1)
    refine IsChampion.extend
      (first_equal_champion keys (c + 8) _ _ _ _ best rfl (by norm_num) (by norm_num)
        (by norm_num)
        (hq ▸ hl2.1) (hq ▸ hl2.2.1) (hq ▸ hl2.2.2.1) (hq ▸ hl2.2.2.2)
        (by rcases hat2 with h | h | h | h
            exacts [Or.inl (hq ▸ h), Or.inr (Or.inl (hq ▸ h)),
              Or.inr (Or.inr (Or.inl (hq ▸ h))), Or.inr (Or.inr (Or.inr (hq ▸ h)))]))
      (by omega) (by omega) ?_ ?_
    · intro t ht1 ht2
      have ht : t = c ∨ t = c + 1 ∨ t = c + 2 ∨ t = c + 3 ∨ t = c + 4 ∨ t = c + 5 ∨
        t = c + 6 ∨ t = c + 7 := by omega
      rcases ht with rfl | rfl | rfl | rfl | rfl | rfl | rfl | rfl
      · exact lt_of_lt_of_le hb0 hl0.1
      · exact lt_of_lt_of_le hb0 hl0.2.1
      · exact lt_of_lt_of_le hb0 hl0.2.2.1
      · exact lt_of_lt_of_le hb0 hl0.2.2.2
      · exact lt_of_lt_of_le hb1 hl1.1
      · exact lt_of_lt_of_le hb1 hl1.2.1
      · exact lt_of_lt_of_le hb1 hl1.2.2.1
      · exact lt_of_lt_of_le hb1 hl1.2.2.2
    · intro t ht1 ht2
      have ht : t = c + 12 ∨ t = c + 13 ∨ t = c + 14 ∨ t = c + 15 := by omega
      rcases ht with rfl | rfl | rfl | rfl
      · exact le_trans hBle.2.2.2 hl3.1
      · exact le_trans hBle.2.2.2 hl3.2.1
      · exact le_trans hBle.2.2.2 hl3.2.2.1
      · exact le_trans hBle.2.2.2 hl3.2.2.2
  · rw [if_neg (by norm_num), if_neg (by norm_num), if_neg (by norm_num)]
    have hb0 : best < m0 := lt_of_le_of_ne hBle.1 (Ne.symm hn0)
    have hb1 : best < m1 := lt_of_le_of_ne hBle.2.1 (Ne.symm hn1)
    have hb2 : best < m2 := lt_of_le_of_ne hBle.2.2.1 (Ne.symm hn2)
    refine IsChampion.extend
      (first_equal_champion keys (c + 12) _ _ _ _ best rfl (by norm_num) (by norm_num)
        (by norm_num)
        (hq ▸ hl3.1) (hq ▸ hl3.2.1) (hq ▸ hl3.2.2.1) (hq ▸ hl3.2.2.2)
        (by rcases hat3 with h | h | h | h
            exacts [Or.inl (hq ▸ h), Or.inr (Or.inl (hq ▸ h)),
              Or.inr (Or.inr (Or.inl (hq ▸ h))), Or.inr (Or.inr (Or.inr (hq ▸ h)))]))
      (by omega) (by omega) ?_ ?_
    · intro t ht1 ht2
      have ht : t = c ∨ t = c + 1 ∨ t = c + 2 ∨ t = c + 3 ∨ t = c + 4 ∨ t = c + 5 ∨
        t = c + 6 ∨ t = c + 7 ∨ t = c + 8 ∨ t = c + 9 ∨ t = c + 10 ∨ t = c + 11 := by omega
      rcases ht with rfl | rfl | rfl | rfl | rfl | rfl | rfl | rfl | rfl | rfl | rfl | rfl
      · exact lt_of_lt_of_le hb0 hl0.1
      · exact lt_of_lt_of_le hb0 hl0.2.1
      · exact lt_of_lt_of_le hb0 hl0.2.2.1
      · exact lt_of_lt_of_le hb0 hl0.2.2.2
      · exact lt_of_lt_of_le hb1 hl1.1
      · exact lt_of_lt_of_le hb1 hl1.2.1
      · exact lt_of_lt_of_le hb1 hl1.2.2.1
      · exact lt_of_lt_of_le hb1 hl1.2.2.2
      · exact lt_of_lt_of_le hb2 hl2.1
      · exact lt_of_lt_of_le hb2 hl2.2.1
      · exact lt_of_lt_of_le hb2 hl2.2.2.1
      · exact lt_of_lt_of_le hb2 hl2.2.2.2
    · intro t ht1 ht2
      omega

/-- Every child-minimum computation, SIMD or scalar, yields the
first-encountered minimum of the clamped child range. -/
theorem childMin_champion (cfg : Config) (allow : Bool) (keys : List Int) {c n : Nat}
    (h : c < n) :
    IsChampion keys c (min (c + cfg.kD) n)
      (childMin cfg allow keys c n).1 (childMin cfg allow keys c n).2 := by
  unfold childMin
  split_ifs with h4 h8 h16
  · have hE : min (c + cfg.kD) n = c + 4 := by
      rw [h4.2.1]; omega
    rw [hE]
    exact neonChildMin4_champion keys c
  · have hE : min (c + cfg.kD) n = c + 8 := by
      rw [h8.2.1]; omega
    rw [hE]
    exact neonChildMin8_champion keys c
  · have hE : min (c + cfg.kD) n = c + 16 := by
      rw [h16.2.1]; omega
    rw [hE]
    exact neonChildMin16_champion keys c
  · refine scalarChildMin_champion keys ?_
    have := cfg.kD_ge_two
    omega

/-- The child-minimum computation does not depend on the policy decision:
the SIMD and scalar comparators agree on value and tie-broken index. -/
theorem childMin_allow_eq (cfg : Config) (a1 a2 : Bool) (keys : List Int) {c n : Nat}
    (h : c < n) : childMin cfg a1 keys c n = childMin cfg a2 keys c n := by
  have h1 := childMin_champion cfg a1 keys h
  have h2 := childMin_champion cfg a2 keys h
  have hu := IsChampion.unique h1 h2
  exact Prod.ext hu.1 hu.2

/-- Every index `j` with `parent j = i` lies in the child range
`[first_child i, first_child i + kD)`. -/
theorem child_range (cfg : Config) {i j : Nat} (hj : 0 < j) (hp : parent cfg j = i) :
    first_child cfg i ≤ j ∧ j < first_child cfg i + cfg.kD := by
  have hd : 0 < cfg.kD := by have := cfg.kD_ge_two; omega
  unfold parent at hp
  unfold first_child
  have h1 : cfg.kD * ((j - 1) / cfg.kD) + (j - 1) % cfg.kD = j - 1 := Nat.div_add_mod _ _
  have h2 : (j - 1) % cfg.kD < cfg.kD := Nat.mod_lt _ hd
  subst hp
  rw [Nat.mul_comm]
  constructor <;> omega

/-! ### More list helpers: append, dropLast -/

theorem getD_append_lt {α : Type} (l : List α) (x d : α) {j : Nat} (h : j < l.length) :
    (l ++ [x]).getD j d = l.getD j d := by
  simp [List.getElem?_append_left h]

theorem getD_append_self {α : Type} (l : List α) (x d : α) :
    (l ++ [x]).getD l.length d = x := by
  simp [List.getElem?_concat_length]

theorem getD_dropLast {α : Type} (l : List α) (d : α) {t : Nat} (h : t < l.length - 1) :
    l.dropLast.getD t d = l.getD t d := by
  rw [List.dropLast_eq_take]
  simp [List.getElem?_take_of_lt (by omega : t < l.length - 1)]

theorem getLast_eq_getD {α : Type} (l : List α) (d : α) (hl : l ≠ []) :
    l.getLast hl = l.getD (l.length - 1) d := by
  have hlen : l.length - 1 < l.length := by
    cases l with
    | nil => exact absurd rfl hl
    | cons a t => simp
  rw [List.getD_eq_getElem _ _ hlen, List.getLast_eq_getElem]

theorem count_dropLast {α : Type} [DecidableEq α] (l : List α) (y d : α) (hl : l ≠ []) :
    l.dropLast.count y + (if l.getD (l.length - 1) d = y then 1 else 0) = l.count y := by
  conv_rhs => rw [← List.dropLast_append_getLast hl]
  rw [List.count_append, getLast_eq_getD l d hl]
  simp [List.count_singleton]

/-! ### Lengths of the sift results -/

theorem siftUpGo_length (cfg : Config) (key : Int) (slot : Nat) :
    ∀ fuel keys slots i,
      (siftUpGo cfg key slot fuel keys slots i).1.length = keys.length ∧
        (siftUpGo cfg key slot fuel keys slots i).2.length = slots.length
  | 0, keys, slots, i => by simp [siftUpGo]
  | fuel + 1, keys, slots, i => by
    rw [siftUpGo]
    by_cases h0 : 0 < i
    · rw [if_pos h0]
      by_cases hlt : key < keys.getD (parent cfg i) 0
      · rw [if_pos hlt]
        have := siftUpGo_length cfg key slot fuel
          (keys.set i (keys.getD (parent cfg i) 0))
          (slots.set i (slots.getD (parent cfg i) 0)) (parent cfg i)
        simpa using this
      · rw [if_neg hlt]; simp
    · rw [if_neg h0]; simp

theorem siftDownGo_length (cfg : Config) (phase : Bool) (key : Int) (slot : Nat) :
    ∀ fuel keys slots i,
      (siftDownGo cfg phase key slot fuel keys slots i).1.length = keys.length ∧
        (siftDownGo cfg phase key slot fuel keys slots i).2.length = slots.length
  | 0, keys, slots, i => by simp [siftDownGo]
  | fuel + 1, keys, slots, i => by
    rw [siftDownGo]
    by_cases hc : first_child cfg i < keys.length
    · rw [if_pos hc]
      by_cases hlt : (childMin cfg (allowSimd cfg phase i keys.length)
          keys (first_child cfg i) keys.length).2 < key
      · rw [if_pos hlt]
        have := siftDownGo_length cfg phase key slot fuel
          (keys.set i (keys.getD (childMin cfg (allowSimd cfg phase i keys.length)
            keys (first_child cfg i) keys.length).1 0))
          (slots.set i (slots.getD (childMin cfg (allowSimd cfg phase i keys.length)
            keys (first_child cfg i) keys.length).1 0))
          (childMin cfg (allowSimd cfg phase i keys.length)
            keys (first_child cfg i) keys.length).1
        simpa using this
      · rw [if_neg hlt]; simp
    · rw [if_neg hc]; simp

/-! ### The sift results permute the array with the held pair written back -/

theorem siftUpGo_keys_perm (cfg : Config) (key : Int) (slot : Nat) :
    ∀ fuel (keys : List Int) (slots : List Nat) i, i < keys.length →
      (siftUpGo cfg key slot fuel keys slots i).1.Perm (keys.set i key)
  | 0, keys, slots, i, hi => by simp [siftUpGo]
  | fuel + 1, keys, slots, i, hi => by
    rw [siftUpGo]
    by_cases h0 : 0 < i
    · rw [if_pos h0]
      by_cases hlt : key < keys.getD (parent cfg i) 0
      · rw [if_pos hlt]
        have hp : parent cfg i < keys.length := lt_trans (parent_lt cfg h0) hi
        have hrec := siftUpGo_keys_perm cfg key slot fuel
          (keys.set i (keys.getD (parent cfg i) 0))
          (slots.set i (slots.getD (parent cfg i) 0)) (parent cfg i)
          (by simpa using hp)
        refine hrec.trans ?_
        have hgp : keys.getD (parent cfg i) 0 = keys[parent cfg i] :=
          List.getD_eq_getElem _ _ hp
        rw [hgp]
        exact set_set_perm keys key hi hp (Nat.ne_of_lt (parent_lt cfg h0))
      · rw [if_neg hlt]
    · rw [if_neg h0]

theorem siftUpGo_slots_perm (cfg : Config) (key : Int) (slot : Nat) :
    ∀ fuel (keys : List Int) (slots : List Nat) i, i < keys.length → i < slots.length →
      (siftUpGo cfg key slot fuel keys slots i).2.Perm (slots.set i slot)
  | 0, keys, slots, i, hi, hi2 => by simp [siftUpGo]
  | fuel + 1, keys, slots, i, hi, hi2 => by
    rw [siftUpGo]
    by_cases h0 : 0 < i
    · rw [if_pos h0]
      by_cases hlt : key < keys.getD (parent cfg i) 0
      · rw [if_pos hlt]
        have hp : parent cfg i < keys.length := lt_trans (parent_lt cfg h0) hi
        have hp2 : parent cfg i < slots.length := lt_trans (parent_lt cfg h0) hi2
        have hrec := siftUpGo_slots_perm cfg key slot fuel
          (keys.set i (keys.getD (parent cfg i) 0))
          (slots.set i (slots.getD (parent cfg i) 0)) (parent cfg i)
          (by simpa using hp) (by simpa using hp2)
        refine hrec.trans ?_
        have hgp : slots.getD (parent cfg i) 0 = slots[parent cfg i] :=
          List.getD_eq_getElem _ _ hp2
        rw [hgp]
        exact set_set_perm slots slot hi2 hp2 (Nat.ne_of_lt (parent_lt cfg h0))
      · rw [if_neg hlt]
    · rw [if_neg h0]

/-- Bounds on the child chosen by a child-minimum computation. -/
theorem childMin_bounds (cfg : Config) (allow : Bool) (keys : List Int) {c n : Nat}
    (hc : c < n) :
    c ≤ (childMin cfg allow keys c n).1 ∧ (childMin cfg allow keys c n).1 < n := by
  obtain ⟨h1, h2, -, -, -⟩ := childMin_champion cfg allow keys hc
  exact ⟨h1, by omega⟩

theorem siftDownGo_keys_perm (cfg : Config) (phase : Bool) (key : Int) (slot : Nat) :
    ∀ fuel (keys : List Int) (slots : List Nat) i, i < keys.length →
      (siftDownGo cfg phase key slot fuel keys slots i).1.Perm (keys.set i key)
  | 0, keys, slots, i, hi => by simp [siftDownGo]
  | fuel + 1, keys, slots, i, hi => by
    rw [siftDownGo]
    by_cases hc : first_child cfg i < keys.length
    · rw [if_pos hc]
      have hm := childMin_bounds cfg (allowSimd cfg phase i keys.length) keys hc
      set m := (childMin cfg (allowSimd cfg phase i keys.length)
        keys (first_child cfg i) keys.length).1 with hmdef
      have him : i < m := lt_of_lt_of_le (lt_first_child cfg i) hm.1
      by_cases hlt : (childMin cfg (allowSimd cfg phase i keys.length)
          keys (first_child cfg i) keys.length).2 < key
      · rw [if_pos hlt]
        have hrec := siftDownGo_keys_perm cfg phase key slot fuel
          (keys.set i (keys.getD m 0)) (slots.set i (slots.getD m 0)) m
          (by simpa using hm.2)
        refine hrec.trans ?_
        have hgp : keys.getD m 0 = keys[m] := List.getD_eq_getElem _ _ hm.2
        rw [hgp]
        exact (set_set_perm keys key hi hm.2 (Nat.ne_of_gt him)).symm.symm
      · rw [if_neg hlt]
    · rw [if_neg hc]

theorem siftDownGo_slots_perm (cfg : Config) (phase : Bool) (key : Int) (slot : Nat) :
    ∀ fuel (keys : List Int) (slots : List Nat) i, i < keys.length →
      slots.length = keys.length →
      (siftDownGo cfg phase key slot fuel keys slots i).2.Perm (slots.set i slot)
  | 0, keys, slots, i, hi, hlen => by simp [siftDownGo]
  | fuel + 1, keys, slots, i, hi, hlen => by
    rw [siftDownGo]
    by_cases hc : first_child cfg i < keys.length
    · rw [if_pos hc]
      have hm := childMin_bounds cfg (allowSimd cfg phase i keys.length) keys hc
      set m := (childMin cfg (allowSimd cfg phase i keys.length)
        keys (first_child cfg i) keys.length).1 with hmdef
      have him : i < m := lt_of_lt_of_le (lt_first_child cfg i) hm.1
      have hi2 : i < slots.length := by omega
      have hm2 : m < slots.length := by omega
      by_cases hlt : (childMin cfg (allowSimd cfg phase i keys.length)
          keys (first_child cfg i) keys.length).2 < key
      · rw [if_pos hlt]
        have hrec := siftDownGo_slots_perm cfg phase key slot fuel
          (keys.set i (keys.getD m 0)) (slots.set i (slots.getD m 0)) m
          (by simpa using hm.2) (by simpa using hlen)
        refine hrec.trans ?_
        have hgp : slots.getD m 0 = slots[m] := List.getD_eq_getElem _ _ hm2
        rw [hgp]
        exact set_set_perm slots slot hi2 hm2 (Nat.ne_of_gt him)
      · rw [if_neg hlt]
    · rw [if_neg hc]

/-! ### Sift-up establishes the heap property -/

/-- Loop invariant for sift_up.  The hole is at `i`, holding `key`: the heap
property holds everywhere away from the hole, the keys of the children of the
hole dominate `key`, and (below the root) also dominate the hole's parent
key. -/
theorem siftUpGo_heap (cfg : Config) (key : Int) (slot : Nat) :
    ∀ fuel (keys : List Int) (slots : List Nat) i,
      i < keys.length → i ≤ fuel →
      (∀ j, j < keys.length → 0 < j → j ≠ i →
        keys.getD (parent cfg j) 0 ≤ keys.getD j 0) →
      (∀ j, j < keys.length → 0 < j → parent cfg j = i → key ≤ keys.getD j 0) →
      (0 < i → ∀ j, j < keys.length → 0 < j → parent cfg j = i →
        keys.getD (parent cfg i) 0 ≤ keys.getD j 0) →
      heapProp cfg (siftUpGo cfg key slot fuel keys slots i).1 := by
  intro fuel
  induction fuel with
  | zero =>
    intro keys slots i hi hif h1 h2a h2b
    have hi0 : i = 0 := by omega
    subst hi0
    rw [siftUpGo]
    intro j hj hj0 _
    simp only [List.length_set] at hj
    by_cases hpj : parent cfg j = 0
    · rw [hpj, getD_set_eq _ _ _ _ hi, getD_set_ne _ _ _ _ _ (by omega)]
      exact h2a j hj hj0 hpj
    · rw [getD_set_ne _ _ _ _ _ (by omega), getD_set_ne _ _ _ _ _ (by omega)]
      exact h1 j hj hj0 (by omega)
  | succ fuel ih =>
    intro keys slots i hi hif h1 h2a h2b
    rw [siftUpGo]
    by_cases h0 : 0 < i
    · rw [if_pos h0]
      have hpi : parent cfg i < i := parent_lt cfg h0
      have hp : parent cfg i < keys.length := by omega
      by_cases hlt : key < keys.getD (parent cfg i) 0
      · rw [if_pos hlt]
        apply ih _ _ (parent cfg i) (by simpa using hp) (by omega)
        · -- heap property away from the new hole
          intro j hj hj0 hjne
          simp only [List.length_set] at hj
          by_cases hji : j = i
          · subst hji
            rw [getD_set_eq _ _ _ _ hi, getD_set_ne _ _ _ _ _ (by omega)]
          · by_cases hpj : parent cfg j = i
            · rw [hpj, getD_set_eq _ _ _ _ hi, getD_set_ne _ _ _ _ _ (by omega)]
              exact h2b h0 j hj hj0 hpj
            · rw [getD_set_ne _ _ _ _ _ (by omega), getD_set_ne _ _ _ _ _ (by omega)]
              exact h1 j hj hj0 hji
        · -- children of the new hole dominate the inserted key
          intro j hj hj0 hpj
          simp only [List.length_set] at hj
          by_cases hji : j = i
          · subst hji
            rw [getD_set_eq _ _ _ _ hi]
            exact le_of_lt hlt
          · rw [getD_set_ne _ _ _ _ _ (by omega)]
            exact le_of_lt (lt_of_lt_of_le hlt (hpj ▸ h1 j hj hj0 hji))
        · -- children of the new hole dominate its parent key
          intro hp0 j hj hj0 hpj
          simp only [List.length_set] at hj
          have hpp : parent cfg (parent cfg i) < parent cfg i := parent_lt cfg hp0
          have hkp : keys.getD (parent cfg (parent cfg i)) 0 ≤
              keys.getD (parent cfg i) 0 := h1 (parent cfg i) hp hp0 (by omega)
          by_cases hji : j = i
          · subst hji
            rw [getD_set_eq _ _ _ _ hi, getD_set_ne _ _ _ _ _ (by omega)]
            exact hkp
          · rw [getD_set_ne _ _ _ _ _ (by omega), getD_set_ne _ _ _ _ _ (by omega)]
            exact le_trans hkp (hpj ▸ h1 j hj hj0 hji)
      · rw [if_neg hlt]
        intro j hj hj0 _
        simp only [List.length_set] at hj
        by_cases hji : j = i
        · subst hji
          rw [getD_set_eq _ _ _ _ hi, getD_set_ne _ _ _ _ _ (by omega)]
          omega
        · by_cases hpj : parent cfg j = i
          · rw [hpj, getD_set_eq _ _ _ _ hi, getD_set_ne _ _ _ _ _ (by omega)]
            exact h2a j hj hj0 hpj
          · rw [getD_set_ne _ _ _ _ _ (by omega), getD_set_ne _ _ _ _ _ (by omega)]
            exact h1 j hj hj0 hji
    · rw [if_neg h0]
      have hi0 : i = 0 := by omega
      subst hi0
      intro j hj hj0 _
      simp only [List.length_set] at hj
      by_cases hpj : parent cfg j = 0
      · rw [hpj, getD_set_eq _ _ _ _ hi, getD_set_ne _ _ _ _ _ (by omega)]
        exact h2a j hj hj0 hpj
      · rw [getD_set_ne _ _ _ _ _ (by omega), getD_set_ne _ _ _ _ _ (by omega)]
        exact h1 j hj hj0 (by omega)

/-! ### Sift-down establishes the heap property below the start index -/

/-- Loop invariant for sift_down started at `i0`.  The hole is at `i`, holding
`key`: the heap property holds at every pair with parent index in `[i0, n)`
away from the hole, and once the hole has left `i0`, its parent key bounds
both `key` and the keys of the hole's children. -/
theorem siftDownGo_heap (cfg : Config) (phase : Bool) (key : Int) (slot : Nat) :
    ∀ fuel (keys : List Int) (slots : List Nat) i i0,
      i0 ≤ i → i < keys.length → keys.length ≤ fuel + i →
      (∀ j, j < keys.length → 0 < j → i0 ≤ parent cfg j → parent cfg j ≠ i →
        keys.getD (parent cfg j) 0 ≤ keys.getD j 0) →
      (i ≠ i0 → 0 < i ∧ keys.getD (parent cfg i) 0 ≤ key ∧
        (∀ j, j < keys.length → 0 < j → parent cfg j = i →
          keys.getD (parent cfg i) 0 ≤ keys.getD j 0)) →
      heapFrom cfg (siftDownGo cfg phase key slot fuel keys slots i).1 i0 := by
  intro fuel
  induction fuel with
  | zero =>
    intro keys slots i i0 hi0 hi hif h1 h2
    exact absurd hi (by omega)
  | succ fuel ih =>
    intro keys slots i i0 hi0 hi hif h1 h2
    simp only [siftDownGo]
    by_cases hc : first_child cfg i < keys.length
    · rw [if_pos hc]
      have hch := childMin_champion cfg (allowSimd cfg phase i keys.length) keys hc
      generalize hMdef : childMin cfg (allowSimd cfg phase i keys.length) keys
        (first_child cfg i) keys.length = M at hch ⊢
      obtain ⟨hm1, hm2, hmg, hmall, hmst⟩ := hch
      have hmlen : M.1 < keys.length := by omega
      have hmblock : M.1 < first_child cfg i + cfg.kD := by omega
      have him : i < M.1 := lt_of_lt_of_le (lt_first_child cfg i) hm1
      have hparM : parent cfg M.1 = i := by
        have := parent_first_child cfg i (M.1 - first_child cfg i) (by omega)
        rwa [show first_child cfg i + (M.1 - first_child cfg i) = M.1 by omega] at this
      have hchildall : ∀ j, j < keys.length → 0 < j → parent cfg j = i →
          M.2 ≤ keys.getD j 0 := by
        intro j hj hj0 hpj
        have hcr := child_range cfg hj0 hpj
        exact hmall j hcr.1 (by omega)
      by_cases hlt : M.2 < key
      · rw [if_pos hlt]
        apply ih _ _ M.1 i0 (by omega) (by simpa using hmlen)
          (by simp only [List.length_set]; omega)
        · -- heap property away from the new hole
          intro j hj hj0 hge hjne
          simp only [List.length_set] at hj
          by_cases hji : j = i
          · subst hji
            have hpj : parent cfg j < j := parent_lt cfg hj0
            have hjne0 : j ≠ i0 := by omega
            rw [getD_set_eq _ _ _ _ hi, getD_set_ne _ _ _ _ _ (by omega)]
            exact (h2 hjne0).2.2 M.1 hmlen (by omega) hparM
          · by_cases hpj : parent cfg j = i
            · rw [hpj, getD_set_eq _ _ _ _ hi, getD_set_ne _ _ _ _ _ (by omega)]
              rw [hmg]
              exact hchildall j hj hj0 hpj
            · rw [getD_set_ne _ _ _ _ _ (by omega), getD_set_ne _ _ _ _ _ (by omega)]
              exact h1 j hj hj0 hge hpj
        · -- the new hole's parent key bounds key and the new children
          intro hne
          refine ⟨by omega, ?_, ?_⟩
          · rw [hparM, getD_set_eq _ _ _ _ hi, hmg]
            exact le_of_lt hlt
          · intro j hj hj0 hpj
            simp only [List.length_set] at hj
            have hji : j ≠ i := by
              have := parent_lt cfg hj0
              omega
            rw [hparM, getD_set_eq _ _ _ _ hi, getD_set_ne _ _ _ _ _ (by omega), hmg]
            have := h1 j hj hj0 (by omega) (by omega)
            rwa [hpj, hmg] at this
      · rw [if_neg hlt]
        intro j hj hj0 hge
        simp only [List.length_set] at hj
        by_cases hji : j = i
        · subst hji
          have hpj : parent cfg j < j := parent_lt cfg hj0
          have hjne0 : j ≠ i0 := by omega
          rw [getD_set_eq _ _ _ _ hi, getD_set_ne _ _ _ _ _ (by omega)]
          exact (h2 hjne0).2.1
        · by_cases hpj : parent cfg j = i
          · rw [hpj, getD_set_eq _ _ _ _ hi, getD_set_ne _ _ _ _ _ (by omega)]
            exact le_trans (by omega) (hchildall j hj hj0 hpj)
          · rw [getD_set_ne _ _ _ _ _ (by omega), getD_set_ne _ _ _ _ _ (by omega)]
            exact h1 j hj hj0 hge hpj
    · rw [if_neg hc]
      intro j hj hj0 hge
      simp only [List.length_set] at hj
      by_cases hji : j = i
      · subst hji
        have hpj : parent cfg j < j := parent_lt cfg hj0
        have hjne0 : j ≠ i0 := by omega
        rw [getD_set_eq _ _ _ _ hi, getD_set_ne _ _ _ _ _ (by omega)]
        exact (h2 hjne0).2.1
      · by_cases hpj : parent cfg j = i
        · have hcr := child_range cfg hj0 hpj
          omega
        · rw [getD_set_ne _ _ _ _ _ (by omega), getD_set_ne _ _ _ _ _ (by omega)]
          exact h1 j hj hj0 hge hpj

/-- `sift_down(i)` turns "every subtree strictly below `i` is heap-ordered"
into "every subtree at or below `i` is heap-ordered". -/
theorem sift_down_heapFrom (cfg : Config) (keys : List Int) (slots : List Nat) (i : Nat)
    (phase : Bool) (hi : i < keys.length) (h : heapFrom cfg keys (i + 1)) :
    heapFrom cfg (sift_down cfg keys slots i phase).1 i := by
  unfold sift_down
  apply siftDownGo_heap cfg phase _ _ _ keys slots i i (le_refl i) hi (by omega)
  · intro j hj hj0 hge hne
    exact h j hj hj0 (by omega)
  · intro hne
    exact absurd rfl hne

/-! ### Operation-level lemmas: push -/

theorem heapFrom_mono (cfg : Config) {keys : List Int} {l1 l2 : Nat} (h12 : l1 ≤ l2)
    (h : heapFrom cfg keys l1) : heapFrom cfg keys l2 :=
  fun j hj hj0 hge => h j hj hj0 (le_trans h12 hge)

theorem no_child_of_last (cfg : Config) {n j : Nat} (hj : j < n + 1) (hj0 : 0 < j)
    (hpj : parent cfg j = n) : False := by
  have hcr := child_range cfg hj0 hpj
  have hnk : n ≤ n * cfg.kD :=
    Nat.le_mul_of_pos_right n (by have := cfg.kD_ge_two; omega)
  unfold first_child at hcr
  omega

theorem push_heapProp (cfg : Config) (h : DHeap4Simd) (v : Int)
    (hh : heapProp cfg h.heap_keys_) :
    heapProp cfg (DHeap4Simd.push cfg h v).heap_keys_ := by
  unfold DHeap4Simd.push sift_up
  have hlen : (h.heap_keys_ ++ [v]).length = h.heap_keys_.length + 1 := by simp
  apply siftUpGo_heap
  · omega
  · omega
  · intro j hj hj0 hjne
    rw [hlen] at hj
    have hjn : j < h.heap_keys_.length := by omega
    have hpn : parent cfg j < h.heap_keys_.length :=
      lt_trans (parent_lt cfg hj0) hjn
    rw [getD_append_lt _ _ _ hpn, getD_append_lt _ _ _ hjn]
    exact hh j hjn hj0 (by omega)
  · intro j hj hj0 hpj
    rw [hlen] at hj
    have hE : (h.heap_keys_ ++ [v]).length - 1 = h.heap_keys_.length := by simp
    exact (no_child_of_last cfg hj hj0 (by rw [hpj, hE])).elim
  · intro h0 j hj hj0 hpj
    rw [hlen] at hj
    have hE : (h.heap_keys_ ++ [v]).length - 1 = h.heap_keys_.length := by simp
    exact (no_child_of_last cfg hj hj0 (by rw [hpj, hE])).elim

theorem push_size (cfg : Config) (h : DHeap4Simd) (v : Int) :
    (DHeap4Simd.push cfg h v).size = h.size + 1 := by
  unfold DHeap4Simd.push sift_up DHeap4Simd.size
  rw [(siftUpGo_length cfg _ _ _ _ _ _).1]
  simp

theorem push_slots_length (cfg : Config) (h : DHeap4Simd) (v : Int) :
    (DHeap4Simd.push cfg h v).heap_slots_.length = h.heap_slots_.length + 1 := by
  unfold DHeap4Simd.push sift_up
  rw [(siftUpGo_length cfg _ _ _ _ _ _).2]
  simp

theorem push_keys_perm (cfg : Config) (h : DHeap4Simd) (v : Int) :
    (DHeap4Simd.push cfg h v).heap_keys_.Perm (h.heap_keys_ ++ [v]) := by
  unfold DHeap4Simd.push sift_up
  have hlen : (h.heap_keys_ ++ [v]).length = h.heap_keys_.length + 1 := by simp
  have hi : (h.heap_keys_ ++ [v]).length - 1 < (h.heap_keys_ ++ [v]).length := by omega
  refine (siftUpGo_keys_perm cfg _ _ _ _ _ _ hi).trans ?_
  rw [set_getD_self _ _ _ hi]

theorem push_slots_perm (cfg : Config) (h : DHeap4Simd) (v : Int)
    (hsl : h.heap_slots_.length = h.heap_keys_.length) :
    (DHeap4Simd.push cfg h v).heap_slots_.Perm
      (h.heap_slots_ ++ [(DHeap4Simd.acquire_slot h.free_slots_ h.next_slot_).1]) := by
  unfold DHeap4Simd.push sift_up
  have hlen : (h.heap_keys_ ++ [v]).length = h.heap_keys_.length + 1 := by simp
  have hi : (h.heap_keys_ ++ [v]).length - 1 < (h.heap_keys_ ++ [v]).length := by omega
  have hi2 : (h.heap_keys_ ++ [v]).length - 1 <
      (h.heap_slots_ ++ [(DHeap4Simd.acquire_slot h.free_slots_ h.next_slot_).1]).length := by
    simp [hsl]
  refine (siftUpGo_slots_perm cfg _ _ _ _ _ _ hi hi2).trans ?_
  rw [set_getD_self _ _ _ hi2]

/-! ### Operation-level lemmas: pop -/

theorem pop_ok_iff (cfg : Config) (h : DHeap4Simd) :
    (∃ h2, DHeap4Simd.pop cfg h = .ok h2) ↔ 0 < h.size := by
  unfold DHeap4Simd.pop DHeap4Simd.empty DHeap4Simd.size
  by_cases he : h.heap_keys_.isEmpty
  · rw [if_pos he]
    simp [List.isEmpty_iff] at he
    simp [he]
  · rw [if_neg he]
    simp [List.isEmpty_iff] at he
    have : 0 < h.heap_keys_.length := List.length_pos.mpr he
    by_cases h1 : h.heap_keys_.length = 1 <;> simp [h1, this]

theorem count_set_getD {α : Type} [DecidableEq α] (l : List α) (i : Nat) (x y d : α)
    (h : i < l.length) :
    (l.set i x).count y + (if l.getD i d = y then 1 else 0) =
      l.count y + (if x = y then 1 else 0) := by
  have hc := count_set l i x y h
  rwa [show l[i] = l.getD i d from (List.getD_eq_getElem _ _ h).symm] at hc

/-- Moving the last element over the root and dropping the last position keeps
every element except one copy of the root. -/
theorem set_last_dropLast_count {α : Type} [DecidableEq α] (l : List α) (y d : α)
    (hn : 2 ≤ l.length) :
    ((l.set 0 (l.getD (l.length - 1) d)).dropLast).count y +
      (if l.getD 0 d = y then 1 else 0) = l.count y := by
  have hne : l.set 0 (l.getD (l.length - 1) d) ≠ [] := by
    apply List.ne_nil_of_length_pos
    simp
    omega
  have h1 := count_dropLast (l.set 0 (l.getD (l.length - 1) d)) y d hne
  rw [List.length_set, getD_set_ne l 0 (l.length - 1) _ d (by omega)] at h1
  have h2 := count_set_getD l 0 (l.getD (l.length - 1) d) y d (by omega)
  by_cases c1 : l.getD (l.length - 1) d = y <;> by_cases c2 : l.getD 0 d = y <;>
    simp [c1, c2] at h1 h2 ⊢ <;> omega

theorem set_last_dropLast_perm {α : Type} [DecidableEq α] (l : List α) (d : α)
    (hn : 2 ≤ l.length) :
    l.Perm (l.getD 0 d :: (l.set 0 (l.getD (l.length - 1) d)).dropLast) := by
  rw [List.perm_iff_count]
  intro y
  rw [List.count_cons]
  have hc := set_last_dropLast_count l y d hn
  simp only [beq_iff_eq]
  by_cases c2 : l.getD 0 d = y <;> simp [c2] at hc ⊢ <;> omega

/-- The root-replacement array fed into the pop-phase sift-down is
heap-ordered away from the root. -/
theorem pop_keys1_heapFrom (cfg : Config) (keys : List Int) (hh : heapProp cfg keys)
    (hn : 2 ≤ keys.length) :
    heapFrom cfg ((keys.set 0 (keys.getD (keys.length - 1) 0)).dropLast) 1 := by
  intro j hj hj0 hge
  have hlen : ((keys.set 0 (keys.getD (keys.length - 1) 0)).dropLast).length =
      keys.length - 1 := by simp
  rw [hlen] at hj
  have hpj : parent cfg j < j := parent_lt cfg hj0
  rw [getD_dropLast _ _ (by simp; omega), getD_dropLast _ _ (by simp; omega)]
  rw [getD_set_ne _ _ _ _ _ (by omega), getD_set_ne _ _ _ _ _ (by omega)]
  exact hh j (by omega) hj0 (by omega)

/-- Full description of a successful `pop()`: the size drops by one, the heap
property is preserved, and the key multiset loses exactly one copy of the
root key. -/
theorem pop_spec (cfg : Config) (h h2 : DHeap4Simd)
    (hp : DHeap4Simd.pop cfg h = .ok h2) (hh : heapProp cfg h.heap_keys_) :
    h2.size = h.size - 1 ∧ heapProp cfg h2.heap_keys_ ∧
      h.heap_keys_.Perm (h.heap_keys_.getD 0 0 :: h2.heap_keys_) := by
  unfold DHeap4Simd.pop DHeap4Simd.empty at hp
  by_cases he : h.heap_keys_.isEmpty
  · rw [if_pos he] at hp
    exact absurd hp (by simp)
  · rw [if_neg he] at hp
    have hne : h.heap_keys_ ≠ [] := by simpa [List.isEmpty_iff] using he
    have hpos : 0 < h.heap_keys_.length := List.length_pos.mpr hne
    by_cases h1 : h.heap_keys_.length = 1
    · rw [if_pos h1] at hp
      have hk : h.heap_keys_ = [h.heap_keys_.getD 0 0] := by
        cases hkc : h.heap_keys_ with
        | nil => exact absurd hkc hne
        | cons a t =>
          have : t.length = 0 := by
            have := congrArg List.length hkc
            simp at this
            omega
          have ht : t = [] := List.length_eq_zero.mp this
          subst ht
          simp [hkc]
      have hh2 := Except.ok.inj hp
      subst hh2
      refine ⟨?_, ?_, ?_⟩
      · unfold DHeap4Simd.size
        simp
      · intro j hj hj0 hge
        simp at hj
        omega
      · conv_lhs => rw [hk]
        simp [List.dropLast]
        rw [hk]
        simp [List.dropLast]
    · rw [if_neg h1] at hp
      have hn2 : 2 ≤ h.heap_keys_.length := by omega
      have hh2 := Except.ok.inj hp
      subst hh2
      have hlen1 : ((h.heap_keys_.set 0
          (h.heap_keys_.getD (h.heap_keys_.length - 1) 0)).dropLast).length =
          h.heap_keys_.length - 1 := by simp
      have hpos1 : 0 < ((h.heap_keys_.set 0
          (h.heap_keys_.getD (h.heap_keys_.length - 1) 0)).dropLast).length := by omega
      refine ⟨?_, ?_, ?_⟩
      · unfold DHeap4Simd.size
        unfold sift_down
        rw [(siftDownGo_length cfg _ _ _ _ _ _ _).1]
        omega
      · have := sift_down_heapFrom cfg _
          ((h.heap_slots_.set 0
            (h.heap_slots_.getD (h.heap_slots_.length - 1) 0)).dropLast) 0 false hpos1
          (pop_keys1_heapFrom cfg h.heap_keys_ hh hn2)
        exact this
      · have hperm1 := set_last_dropLast_perm h.heap_keys_ (0 : Int) hn2
        have hperm2 : (sift_down cfg
            ((h.heap_keys_.set 0 (h.heap_keys_.getD (h.heap_keys_.length - 1) 0)).dropLast)
            ((h.heap_slots_.set 0 (h.heap_slots_.getD (h.heap_slots_.length - 1) 0)).dropLast)
            0 false).1.Perm
            ((h.heap_keys_.set 0 (h.heap_keys_.getD (h.heap_keys_.length - 1) 0)).dropLast) := by
          unfold sift_down
          refine (siftDownGo_keys_perm cfg _ _ _ _ _ _ _ hpos1).trans ?_
          rw [set_getD_self _ _ _ hpos1]
        exact hperm1.trans ((hperm2.symm.cons _).symm.symm)

/-- Slot bookkeeping of a successful `pop()`: the slot array shrinks with the
key array, and the root slot moves to the free pool. -/
theorem pop_slots_spec (cfg : Config) (h h2 : DHeap4Simd)
    (hp : DHeap4Simd.pop cfg h = .ok h2)
    (hsl : h.heap_slots_.length = h.heap_keys_.length) :
    h2.heap_slots_.length = h2.heap_keys_.length ∧
      h.heap_slots_.Perm (h.heap_slots_.getD 0 0 :: h2.heap_slots_) ∧
      h2.free_slots_ = h.free_slots_ ++ [h.heap_slots_.getD 0 0] ∧
      h2.next_slot_ = h.next_slot_ := by
  unfold DHeap4Simd.pop DHeap4Simd.empty at hp
  by_cases he : h.heap_keys_.isEmpty
  · rw [if_pos he] at hp
    exact absurd hp (by simp)
  · rw [if_neg he] at hp
    have hne : h.heap_keys_ ≠ [] := by simpa [List.isEmpty_iff] using he
    have hpos : 0 < h.heap_keys_.length := List.length_pos.mpr hne
    by_cases h1 : h.heap_keys_.length = 1
    · rw [if_pos h1] at hp
      have hh2 := Except.ok.inj hp
      subst hh2
      have hs : h.heap_slots_ = [h.heap_slots_.getD 0 0] := by
        cases hkc : h.heap_slots_ with
        | nil =>
          rw [hkc] at hsl
          simp at hsl
          omega
        | cons a t =>
          have : t.length = 0 := by
            have := congrArg List.length hkc
            simp at this
            omega
          have ht : t = [] := List.length_eq_zero.mp this
          subst ht
          simp [hkc]
      refine ⟨by simp [hsl], ?_, rfl, rfl⟩
      conv_lhs => rw [hs]
      rw [hs]
      simp [List.dropLast]
    · rw [if_neg h1] at hp
      have hn2 : 2 ≤ h.heap_keys_.length := by omega
      have hh2 := Except.ok.inj hp
      subst hh2
      have hlen1 : ((h.heap_keys_.set 0
          (h.heap_keys_.getD (h.heap_keys_.length - 1) 0)).dropLast).length =
          h.heap_keys_.length - 1 := by simp
      have hpos1 : 0 < ((h.heap_keys_.set 0
          (h.heap_keys_.getD (h.heap_keys_.length - 1) 0)).dropLast).length := by omega
      have hsl1 : ((h.heap_slots_.set 0
          (h.heap_slots_.getD (h.heap_slots_.length - 1) 0)).dropLast).length =
          ((h.heap_keys_.set 0
            (h.heap_keys_.getD (h.heap_keys_.length - 1) 0)).dropLast).length := by
        simp [hsl]
      refine ⟨?_, ?_, rfl, rfl⟩
      · unfold sift_down
        rw [(siftDownGo_length cfg _ _ _ _ _ _ _).1,
          (siftDownGo_length cfg _ _ _ _ _ _ _).2]
        simp [hsl]
      · have hperm1 := set_last_dropLast_perm h.heap_slots_ 0 (by omega)
        have hperm2 : (sift_down cfg
            ((h.heap_keys_.set 0 (h.heap_keys_.getD (h.heap_keys_.length - 1) 0)).dropLast)
            ((h.heap_slots_.set 0 (h.heap_slots_.getD (h.heap_slots_.length - 1) 0)).dropLast)
            0 false).2.Perm
            ((h.heap_slots_.set 0 (h.heap_slots_.getD (h.heap_slots_.length - 1) 0)).dropLast) := by
          unfold sift_down
          refine (siftDownGo_slots_perm cfg _ _ _ _ _ _ _ hpos1 hsl1).trans ?_
          rw [set_getD_self _ _ _ (by omega)]
        exact hperm1.trans ((hperm2.symm.cons _).symm.symm)

/-! ### Operation-level lemmas: bulk construction -/

theorem mintLoop_fresh : ∀ (k : Nat) (slots : List Nat) (next : Nat),
    DHeap4Simd.mintLoop k slots [] next = (slots ++ List.range' next k, [], next + k)
  | 0, slots, next => by simp [DHeap4Simd.mintLoop]
  | k + 1, slots, next => by
    rw [DHeap4Simd.mintLoop]
    have ha : DHeap4Simd.acquire_slot [] next = (next, [], next + 1) := rfl
    rw [ha, mintLoop_fresh k (slots ++ [next]) (next + 1)]
    rw [List.range'_succ]
    simp [Nat.add_assoc, Nat.add_comm 1 k]

theorem buildLoop_length (cfg : Config) : ∀ (i : Nat) (keys : List Int) (slots : List Nat),
    (DHeap4Simd.buildLoop cfg i keys slots).1.length = keys.length ∧
      (DHeap4Simd.buildLoop cfg i keys slots).2.length = slots.length
  | 0, keys, slots => ⟨rfl, rfl⟩
  | i + 1, keys, slots => by
    rw [DHeap4Simd.buildLoop]
    have h1 := buildLoop_length cfg i (sift_down cfg keys slots i true).1
      (sift_down cfg keys slots i true).2
    unfold sift_down at h1 ⊢
    rw [h1.1, h1.2, (siftDownGo_length cfg _ _ _ _ _ _ _).1,
      (siftDownGo_length cfg _ _ _ _ _ _ _).2]
    exact ⟨rfl, rfl⟩

theorem buildLoop_heap (cfg : Config) : ∀ (i : Nat) (keys : List Int) (slots : List Nat),
    i ≤ keys.length → heapFrom cfg keys i →
    heapProp cfg (DHeap4Simd.buildLoop cfg i keys slots).1
  | 0, keys, slots, hle, hh => hh
  | i + 1, keys, slots, hle, hh => by
    rw [DHeap4Simd.buildLoop]
    apply buildLoop_heap cfg i
    · unfold sift_down
      rw [(siftDownGo_length cfg _ _ _ _ _ _ _).1]
      omega
    · exact sift_down_heapFrom cfg keys slots i true (by omega) hh

theorem buildLoop_keys_perm (cfg : Config) : ∀ (i : Nat) (keys : List Int) (slots : List Nat),
    i ≤ keys.length → (DHeap4Simd.buildLoop cfg i keys slots).1.Perm keys
  | 0, keys, slots, hle => List.Perm.refl keys
  | i + 1, keys, slots, hle => by
    rw [DHeap4Simd.buildLoop]
    have hi : i < keys.length := by omega
    have hrec := buildLoop_keys_perm cfg i (sift_down cfg keys slots i true).1
      (sift_down cfg keys slots i true).2
      (by unfold sift_down; rw [(siftDownGo_length cfg _ _ _ _ _ _ _).1]; omega)
    refine hrec.trans ?_
    unfold sift_down
    refine (siftDownGo_keys_perm cfg _ _ _ _ _ _ _ hi).trans ?_
    rw [set_getD_self _ _ _ hi]

theorem buildLoop_slots_perm (cfg : Config) : ∀ (i : Nat) (keys : List Int) (slots : List Nat),
    i ≤ keys.length → slots.length = keys.length →
    (DHeap4Simd.buildLoop cfg i keys slots).2.Perm slots
  | 0, keys, slots, hle, hsl => List.Perm.refl slots
  | i + 1, keys, slots, hle, hsl => by
    rw [DHeap4Simd.buildLoop]
    have hi : i < keys.length := by omega
    have hrec := buildLoop_slots_perm cfg i (sift_down cfg keys slots i true).1
      (sift_down cfg keys slots i true).2
      (by unfold sift_down; rw [(siftDownGo_length cfg _ _ _ _ _ _ _).1]; omega)
      (by unfold sift_down
          rw [(siftDownGo_length cfg _ _ _ _ _ _ _).1,
            (siftDownGo_length cfg _ _ _ _ _ _ _).2]
          exact hsl)
    refine hrec.trans ?_
    unfold sift_down
    refine (siftDownGo_slots_perm cfg _ _ _ _ _ _ _ hi (by omega)).trans ?_
    rw [set_getD_self _ _ _ (by omega)]

theorem parent_mono (cfg : Config) {a b : Nat} (h : a ≤ b) :
    parent cfg a ≤ parent cfg b :=
  Nat.div_le_div_right (by omega)

/-- Full description of the bulk constructor: the key array is a permutation
of the input satisfying the heap property, the slots are a permutation of
`0 .. n-1`, the free pool is empty and the counter is `n`. -/
theorem build_components (cfg : Config) (data : List Int) :
    (DHeap4Simd.build cfg data).free_slots_ = [] ∧
      (DHeap4Simd.build cfg data).next_slot_ = data.length ∧
      (DHeap4Simd.build cfg data).heap_keys_.length = data.length ∧
      (DHeap4Simd.build cfg data).heap_slots_.length = data.length ∧
      (DHeap4Simd.build cfg data).heap_slots_.Perm (List.range data.length) ∧
      (DHeap4Simd.build cfg data).heap_keys_.Perm data ∧
      heapProp cfg (DHeap4Simd.build cfg data).heap_keys_ := by
  unfold DHeap4Simd.build
  rw [mintLoop_fresh]
  have hrange : ([] : List Nat) ++ List.range' 0 data.length = List.range data.length := by
    rw [List.nil_append, ← List.range_eq_range']
  rw [hrange]
  by_cases hn : 1 < data.length
  · rw [if_pos hn]
    have hstart : parent cfg (data.length - 1) + 1 ≤ data.length := by
      have := parent_lt cfg (show 0 < data.length - 1 by omega)
      omega
    have hlr : (List.range data.length).length = data.length := by simp
    have hfrom : heapFrom cfg data (parent cfg (data.length - 1) + 1) := by
      intro j hj hj0 hge
      have := parent_mono cfg (show j ≤ data.length - 1 by omega)
      omega
    refine ⟨rfl, by simp, ?_, ?_, ?_, ?_, ?_⟩
    · exact (buildLoop_length cfg _ _ _).1
    · rw [(buildLoop_length cfg _ _ _).2, hlr]
    · exact buildLoop_slots_perm cfg _ _ _ hstart (by rw [hlr])
    · exact buildLoop_keys_perm cfg _ _ _ hstart
    · exact buildLoop_heap cfg _ _ _ hstart hfrom
  · rw [if_neg hn]
    refine ⟨rfl, by simp, rfl, by simp, List.Perm.refl _, List.Perm.refl _, ?_⟩
    intro j hj hj0 hge
    have hj2 : j < data.length := hj
    omega

/-! ### The root is minimal; draining -/

theorem heapProp_root_le (cfg : Config) {keys : List Int} (hh : heapProp cfg keys) :
    ∀ j, j < keys.length → keys.getD 0 0 ≤ keys.getD j 0 := by
  intro j
  induction j using Nat.strong_induction_on with
  | _ j ih =>
    intro hj
    rcases Nat.eq_zero_or_pos j with rfl | hj0
    · exact le_refl _
    · have hpj := parent_lt cfg hj0
      exact le_trans (ih (parent cfg j) hpj (by omega)) (hh j hj hj0 (by omega))

theorem pop_ok_of_pos (cfg : Config) (h : DHeap4Simd) (hpos : 0 < h.size) :
    DHeap4Simd.pop cfg h = .ok (DHeap4Simd.popTotal cfg h) := by
  obtain ⟨h2, hh2⟩ := (pop_ok_iff cfg h).mpr hpos
  rw [hh2]
  unfold DHeap4Simd.popTotal
  rw [hh2]

theorem empty_iff_size (h : DHeap4Simd) : h.empty = true ↔ h.size = 0 := by
  unfold DHeap4Simd.empty DHeap4Simd.size
  simp [List.isEmpty_iff_length_eq_zero]

theorem drainGo_perm (cfg : Config) : ∀ (fuel : Nat) (h : DHeap4Simd),
    h.size ≤ fuel → heapProp cfg h.heap_keys_ →
    (DHeap4Simd.drainGo cfg fuel h).Perm h.heap_keys_
  | 0, h, hf, hh => by
    have : h.heap_keys_ = [] := List.length_eq_zero.mp (by
      unfold DHeap4Simd.size at hf
      omega)
    rw [DHeap4Simd.drainGo, this]
  | fuel + 1, h, hf, hh => by
    rw [DHeap4Simd.drainGo]
    by_cases he : h.empty
    · rw [if_pos he]
      have : h.heap_keys_ = [] := List.length_eq_zero.mp ((empty_iff_size h).mp he)
      rw [this]
    · rw [if_neg he]
      have hpos : 0 < h.size := by
        rcases Nat.eq_zero_or_pos h.size with h0 | h0
        · exact absurd ((empty_iff_size h).mpr h0) he
        · exact h0
      have hspec := pop_spec cfg h _ (pop_ok_of_pos cfg h hpos) hh
      have hrec := drainGo_perm cfg fuel (DHeap4Simd.popTotal cfg h)
        (by omega) hspec.2.1
      exact (hrec.cons _).trans hspec.2.2.symm

theorem drainGo_sorted (cfg : Config) : ∀ (fuel : Nat) (h : DHeap4Simd),
    h.size ≤ fuel → heapProp cfg h.heap_keys_ →
    List.Sorted (· ≤ ·) (DHeap4Simd.drainGo cfg fuel h)
  | 0, h, hf, hh => by
    rw [DHeap4Simd.drainGo]
    exact List.sorted_nil
  | fuel + 1, h, hf, hh => by
    rw [DHeap4Simd.drainGo]
    by_cases he : h.empty
    · rw [if_pos he]
      exact List.sorted_nil
    · rw [if_neg he]
      have hpos : 0 < h.size := by
        rcases Nat.eq_zero_or_pos h.size with h0 | h0
        · exact absurd ((empty_iff_size h).mpr h0) he
        · exact h0
      have hspec := pop_spec cfg h _ (pop_ok_of_pos cfg h hpos) hh
      refine List.sorted_cons.mpr ⟨?_, drainGo_sorted cfg fuel _ (by omega) hspec.2.1⟩
      intro b hb
      have hb2 : b ∈ (DHeap4Simd.popTotal cfg h).heap_keys_ :=
        (drainGo_perm cfg fuel _ (by omega) hspec.2.1).mem_iff.mp hb
      have hb3 : b ∈ h.heap_keys_ :=
        hspec.2.2.symm.mem_iff.mp (List.mem_cons_of_mem _ hb2)
      obtain ⟨j, hj, hjb⟩ := List.getElem_of_mem hb3
      have := heapProp_root_le cfg hh j hj
      rw [List.getD_eq_getElem _ _ hj, hjb] at this
      exact this

/-! ### Size accounting -/

theorem pop_size (cfg : Config) (h h2 : DHeap4Simd)
    (hp : DHeap4Simd.pop cfg h = .ok h2) : h2.size = h.size - 1 := by
  unfold DHeap4Simd.pop DHeap4Simd.empty at hp
  by_cases he : h.heap_keys_.isEmpty
  · rw [if_pos he] at hp
    exact absurd hp (by simp)
  · rw [if_neg he] at hp
    have hne : h.heap_keys_ ≠ [] := by simpa [List.isEmpty_iff] using he
    have hpos : 0 < h.heap_keys_.length := List.length_pos.mpr hne
    by_cases h1 : h.heap_keys_.length = 1
    · rw [if_pos h1] at hp
      have hh2 := Except.ok.inj hp
      subst hh2
      unfold DHeap4Simd.size
      simp
    · rw [if_neg h1] at hp
      have hh2 := Except.ok.inj hp
      subst hh2
      unfold DHeap4Simd.size sift_down
      rw [(siftDownGo_length cfg _ _ _ _ _ _ _).1]
      simp

theorem popN_spec (cfg : Config) : ∀ (m : Nat) (h : DHeap4Simd), m ≤ h.size →
    ∃ h2, DHeap4Simd.popN cfg m h = .ok h2 ∧ h2.size = h.size - m
  | 0, h, _ => ⟨h, rfl, by omega⟩
  | m + 1, h, hm => by
    have hpos : 0 < h.size := by omega
    have hp := pop_ok_of_pos cfg h hpos
    have hsz := pop_size cfg h _ hp
    obtain ⟨h2, hh2, hs2⟩ := popN_spec cfg m (DHeap4Simd.popTotal cfg h) (by omega)
    refine ⟨h2, ?_, by omega⟩
    rw [DHeap4Simd.popN, hp]
    exact hh2

theorem pushAll_size (cfg : Config) : ∀ (S : List Int) (h : DHeap4Simd),
    (DHeap4Simd.pushAll cfg h S).size = h.size + S.length
  | [], h => by simp [DHeap4Simd.pushAll]
  | v :: S, h => by
    have hstep : DHeap4Simd.pushAll cfg h (v :: S) =
        DHeap4Simd.pushAll cfg (DHeap4Simd.push cfg h v) S := rfl
    rw [hstep, pushAll_size cfg S, push_size]
    simp [Nat.add_comm, Nat.add_assoc, Nat.add_left_comm]

theorem pushAll_heap_perm (cfg : Config) : ∀ (S : List Int) (h : DHeap4Simd),
    heapProp cfg h.heap_keys_ →
    heapProp cfg (DHeap4Simd.pushAll cfg h S).heap_keys_ ∧
      (DHeap4Simd.pushAll cfg h S).heap_keys_.Perm (h.heap_keys_ ++ S)
  | [], h, hh => ⟨hh, by simp [DHeap4Simd.pushAll]⟩
  | v :: S, h, hh => by
    have hstep : DHeap4Simd.pushAll cfg h (v :: S) =
        DHeap4Simd.pushAll cfg (DHeap4Simd.push cfg h v) S := rfl
    rw [hstep]
    obtain ⟨h1, h2⟩ := pushAll_heap_perm cfg S (DHeap4Simd.push cfg h v)
      (push_heapProp cfg h v hh)
    refine ⟨h1, h2.trans ?_⟩
    refine ((push_keys_perm cfg h v).append_right S).trans ?_
    rw [List.append_assoc]
    exact List.Perm.refl _

/-! ### Slot bookkeeping invariant -/

theorem acquire_slot_cases (free : List Nat) (next : Nat) :
    (free = [] ∧ DHeap4Simd.acquire_slot free next = (next, [], next + 1)) ∨
      (free ≠ [] ∧ (DHeap4Simd.acquire_slot free next).2.2 = next ∧
        ((DHeap4Simd.acquire_slot free next).1 ::
          (DHeap4Simd.acquire_slot free next).2.1).Perm free) := by
  cases hf : free.getLast? with
  | none =>
    left
    have : free = [] := by simpa using hf
    subst this
    exact ⟨rfl, rfl⟩
  | some s =>
    right
    have hne : free ≠ [] := by
      intro hc
      rw [hc] at hf
      simp at hf
    have ha : DHeap4Simd.acquire_slot free next = (s, free.dropLast, next) := by
      unfold DHeap4Simd.acquire_slot
      rw [hf]
    refine ⟨hne, by rw [ha], ?_⟩
    rw [ha]
    have hs : free.getLast hne = s := by
      exact Option.some.inj (by rw [← hf, List.getLast?_eq_getLast _ hne])
    calc (s :: free.dropLast).Perm (free.dropLast ++ [s]) := (List.perm_append_singleton s free.dropLast).symm
      _ = free := by rw [← hs, List.dropLast_append_getLast hne]

theorem push_slotInv (cfg : Config) (h : DHeap4Simd) (v : Int) (hs : slotInv h) :
    slotInv (DHeap4Simd.push cfg h v) := by
  obtain ⟨hlen, hperm⟩ := hs
  constructor
  · have h1 := push_slots_length cfg h v
    have h2 := push_size cfg h v
    unfold DHeap4Simd.size at h2
    omega
  · have hps := push_slots_perm cfg h v hlen
    have hfree : (DHeap4Simd.push cfg h v).free_slots_ =
        (DHeap4Simd.acquire_slot h.free_slots_ h.next_slot_).2.1 := rfl
    have hnext : (DHeap4Simd.push cfg h v).next_slot_ =
        (DHeap4Simd.acquire_slot h.free_slots_ h.next_slot_).2.2 := rfl
    rw [hfree, hnext, List.perm_iff_count]
    intro y
    have hc1 := hps.count_eq y
    have hc2 := hperm.count_eq y
    rcases acquire_slot_cases h.free_slots_ h.next_slot_ with ⟨hnil, heq⟩ | ⟨hne, hn2, hp2⟩
    · rw [heq] at hc1 ⊢
      dsimp only at hc1 ⊢
      rw [hnil] at hc2
      rw [List.range_succ]
      simp only [List.count_append, List.count_nil, List.count_cons, List.count_singleton,
        beq_iff_eq, List.append_nil, Nat.add_zero] at hc1 hc2 ⊢
      by_cases hy : h.next_slot_ = y
      · rw [if_pos hy] at hc1 ⊢
        omega
      · rw [if_neg hy] at hc1 ⊢
        omega
    · have hc3 := hp2.count_eq y
      rw [hn2]
      simp only [List.count_append, List.count_cons, beq_iff_eq] at hc1 hc2 hc3 ⊢
      simp only [List.count_nil] at hc1
      by_cases hy : (DHeap4Simd.acquire_slot h.free_slots_ h.next_slot_).1 = y
      · rw [if_pos hy] at hc1 hc3
        omega
      · rw [if_neg hy] at hc1 hc3
        omega

theorem pop_slotInv (cfg : Config) (h h2 : DHeap4Simd)
    (hp : DHeap4Simd.pop cfg h = .ok h2) (hs : slotInv h) : slotInv h2 := by
  obtain ⟨hlen, hperm⟩ := hs
  obtain ⟨hlen2, hperm2, hfree2, hnext2⟩ := pop_slots_spec cfg h h2 hp hlen
  refine ⟨hlen2, ?_⟩
  rw [hfree2, hnext2, List.perm_iff_count]
  intro y
  have hc1 := hperm.count_eq y
  have hc2 := hperm2.count_eq y
  simp only [List.count_append, List.count_cons, List.count_nil, beq_iff_eq] at hc1 hc2 ⊢
  by_cases hy : h.heap_slots_.getD 0 0 = y
  · rw [if_pos hy] at hc2 ⊢
    omega
  · rw [if_neg hy] at hc2 ⊢
    omega

theorem build_slotInv (cfg : Config) (data : List Int) :
    slotInv (DHeap4Simd.build cfg data) := by
  obtain ⟨hfree, hnext, hklen, hslen, hsperm, -, -⟩ := build_components cfg data
  refine ⟨by omega, ?_⟩
  rw [hfree, hnext, List.append_nil]
  exact hsperm

/-- Master invariant: every heap state reachable through the public interface
is heap-ordered and has consistent slot bookkeeping. -/
theorem reachable_inv (cfg : Config) {h : DHeap4Simd} (hr : Reachable cfg h) :
    heapProp cfg h.heap_keys_ ∧ slotInv h := by
  induction hr with
  | empty =>
    refine ⟨?_, rfl, ?_⟩
    · intro j hj hj0 hge
      simp [emptyHeap] at hj
    · simp [emptyHeap]
  | build data =>
    obtain ⟨-, -, -, -, -, -, hheap⟩ := build_components cfg data
    exact ⟨hheap, build_slotInv cfg data⟩
  | push v hr ih =>
    exact ⟨push_heapProp cfg _ v ih.1, push_slotInv cfg _ v ih.2⟩
  | pop hr hp ih =>
    exact ⟨(pop_spec cfg _ _ hp ih.1).2.1, pop_slotInv cfg _ _ hp ih.2⟩
  | clear hr ih =>
    refine ⟨?_, rfl, ?_⟩
    · intro j hj hj0 hge
      simp [DHeap4Simd.clear] at hj
    · simp [DHeap4Simd.clear]
  | reserve n hr ih => exact ih

/-! ### The heap behaviour does not depend on the vectorization policy -/

theorem first_child_congr (cfg1 cfg2 : Config) (hd : cfg1.kD = cfg2.kD) (i : Nat) :
    first_child cfg1 i = first_child cfg2 i := by
  unfold first_child
  rw [hd]

theorem parent_congr (cfg1 cfg2 : Config) (hd : cfg1.kD = cfg2.kD) (i : Nat) :
    parent cfg1 i = parent cfg2 i := by
  unfold parent
  rw [hd]

theorem childMin_congr (cfg1 cfg2 : Config) (hd : cfg1.kD = cfg2.kD)
    (a1 a2 : Bool) (keys : List Int) {c n : Nat} (hc : c < n) :
    childMin cfg1 a1 keys c n = childMin cfg2 a2 keys c n := by
  have h1 := childMin_champion cfg1 a1 keys hc
  have h2 := childMin_champion cfg2 a2 keys hc
  rw [show min (c + cfg2.kD) n = min (c + cfg1.kD) n by rw [hd]] at h2
  have hu := IsChampion.unique h1 h2
  exact Prod.ext hu.1 hu.2

theorem siftUpGo_congr (cfg1 cfg2 : Config) (hd : cfg1.kD = cfg2.kD) (key : Int)
    (slot : Nat) : ∀ fuel (keys : List Int) (slots : List Nat) i,
    siftUpGo cfg1 key slot fuel keys slots i = siftUpGo cfg2 key slot fuel keys slots i
  | 0, keys, slots, i => rfl
  | fuel + 1, keys, slots, i => by
    rw [siftUpGo, siftUpGo, parent_congr cfg1 cfg2 hd]
    by_cases h0 : 0 < i
    · rw [if_pos h0, if_pos h0]
      by_cases hlt : key < keys.getD (parent cfg2 i) 0
      · rw [if_pos hlt, if_pos hlt, siftUpGo_congr cfg1 cfg2 hd key slot fuel]
      · rw [if_neg hlt, if_neg hlt]
    · rw [if_neg h0, if_neg h0]

theorem siftDownGo_congr (cfg1 cfg2 : Config) (hd : cfg1.kD = cfg2.kD)
    (phase1 phase2 : Bool) (key : Int) (slot : Nat) :
    ∀ fuel (keys : List Int) (slots : List Nat) i,
    siftDownGo cfg1 phase1 key slot fuel keys slots i =
      siftDownGo cfg2 phase2 key slot fuel keys slots i
  | 0, keys, slots, i => rfl
  | fuel + 1, keys, slots, i => by
    simp only [siftDownGo]
    rw [first_child_congr cfg1 cfg2 hd]
    by_cases hc : first_child cfg2 i < keys.length
    · rw [if_pos hc, if_pos hc]
      rw [childMin_congr cfg1 cfg2 hd (allowSimd cfg1 phase1 i keys.length)
        (allowSimd cfg2 phase2 i keys.length) keys hc]
      by_cases hlt : (childMin cfg2 (allowSimd cfg2 phase2 i keys.length) keys
          (first_child cfg2 i) keys.length).2 < key
      · rw [if_pos hlt, if_pos hlt, siftDownGo_congr cfg1 cfg2 hd phase1 phase2 key slot fuel]
      · rw [if_neg hlt, if_neg hlt]
    · rw [if_neg hc, if_neg hc]

theorem sift_up_congr (cfg1 cfg2 : Config) (hd : cfg1.kD = cfg2.kD)
    (keys : List Int) (slots : List Nat) (i : Nat) :
    sift_up cfg1 keys slots i = sift_up cfg2 keys slots i := by
  unfold sift_up
  rw [siftUpGo_congr cfg1 cfg2 hd]

theorem sift_down_congr (cfg1 cfg2 : Config) (hd : cfg1.kD = cfg2.kD)
    (keys : List Int) (slots : List Nat) (i : Nat) (phase1 phase2 : Bool) :
    sift_down cfg1 keys slots i phase1 = sift_down cfg2 keys slots i phase2 := by
  unfold sift_down
  rw [siftDownGo_congr cfg1 cfg2 hd phase1 phase2]

theorem push_congr (cfg1 cfg2 : Config) (hd : cfg1.kD = cfg2.kD) (h : DHeap4Simd)
    (v : Int) : DHeap4Simd.push cfg1 h v = DHeap4Simd.push cfg2 h v := by
  simp only [DHeap4Simd.push]
  rw [sift_up_congr cfg1 cfg2 hd]

theorem pop_congr (cfg1 cfg2 : Config) (hd : cfg1.kD = cfg2.kD) (h : DHeap4Simd) :
    DHeap4Simd.pop cfg1 h = DHeap4Simd.pop cfg2 h := by
  simp only [DHeap4Simd.pop]
  rw [sift_down_congr cfg1 cfg2 hd _ _ 0 false false]

theorem popTotal_congr (cfg1 cfg2 : Config) (hd : cfg1.kD = cfg2.kD) (h : DHeap4Simd) :
    DHeap4Simd.popTotal cfg1 h = DHeap4Simd.popTotal cfg2 h := by
  unfold DHeap4Simd.popTotal
  rw [pop_congr cfg1 cfg2 hd]

theorem buildLoop_congr (cfg1 cfg2 : Config) (hd : cfg1.kD = cfg2.kD) :
    ∀ (i : Nat) (keys : List Int) (slots : List Nat),
    DHeap4Simd.buildLoop cfg1 i keys slots = DHeap4Simd.buildLoop cfg2 i keys slots
  | 0, keys, slots => rfl
  | i + 1, keys, slots => by
    simp only [DHeap4Simd.buildLoop]
    rw [sift_down_congr cfg1 cfg2 hd keys slots i true true,
      buildLoop_congr cfg1 cfg2 hd i]

theorem build_congr (cfg1 cfg2 : Config) (hd : cfg1.kD = cfg2.kD) (data : List Int) :
    DHeap4Simd.build cfg1 data = DHeap4Simd.build cfg2 data := by
  simp only [DHeap4Simd.build]
  rw [parent_congr cfg1 cfg2 hd, buildLoop_congr cfg1 cfg2 hd]

theorem applyOp_congr (cfg1 cfg2 : Config) (hd : cfg1.kD = cfg2.kD) (h : DHeap4Simd)
    (op : Op) : applyOp cfg1 h op = applyOp cfg2 h op := by
  cases op with
  | push v => exact push_congr cfg1 cfg2 hd h v
  | pop => exact popTotal_congr cfg1 cfg2 hd h
  | clear => rfl
  | reserve n => rfl

theorem foldl_applyOp_congr (cfg1 cfg2 : Config) (hd : cfg1.kD = cfg2.kD) :
    ∀ (ops : List Op) (h : DHeap4Simd),
    ops.foldl (applyOp cfg1) h = ops.foldl (applyOp cfg2) h
  | [], h => rfl
  | op :: ops, h => by
    rw [List.foldl_cons, List.foldl_cons, applyOp_congr cfg1 cfg2 hd,
      foldl_applyOp_congr cfg1 cfg2 hd ops]

theorem runOps_congr (cfg1 cfg2 : Config) (hd : cfg1.kD = cfg2.kD) (ops : List Op) :
    runOps cfg1 ops = runOps cfg2 ops := by
  unfold runOps
  exact foldl_applyOp_congr cfg1 cfg2 hd ops _

theorem drainGo_congr (cfg1 cfg2 : Config) (hd : cfg1.kD = cfg2.kD) :
    ∀ (fuel : Nat) (h : DHeap4Simd),
    DHeap4Simd.drainGo cfg1 fuel h = DHeap4Simd.drainGo cfg2 fuel h
  | 0, h => rfl
  | fuel + 1, h => by
    rw [DHeap4Simd.drainGo, DHeap4Simd.drainGo]
    by_cases he : h.empty
    · rw [if_pos he, if_pos he]
    · rw [if_neg he, if_neg he, popTotal_congr cfg1 cfg2 hd,
        drainGo_congr cfg1 cfg2 hd fuel]

theorem drain_congr (cfg1 cfg2 : Config) (hd : cfg1.kD = cfg2.kD) (h : DHeap4Simd) :
    DHeap4Simd.drain cfg1 h = DHeap4Simd.drain cfg2 h := by
  unfold DHeap4Simd.drain
  rw [drainGo_congr cfg1 cfg2 hd]

/-! ### Auxiliary configurations for the policy claims -/

/-- The build with `DHEAP_SIMD_POLICY = 1` (always-vectorize). -/
def alwaysConfig : Config := ⟨4, 1, 8, 4194304, by norm_num, by norm_num⟩

/-- The build with `DHEAP_SIMD_POLICY = 0` (never-vectorize). -/
def neverConfig : Config := ⟨4, 0, 8, 4194304, by norm_num, by norm_num⟩

theorem emptyHeap_heapProp (cfg : Config) : heapProp cfg emptyHeap.heap_keys_ := by
  intro j hj hj0 hge
  simp [emptyHeap] at hj

/-! ### The claims -/

/-- C1: for every finite sequence of int32 values pushed in any order into an
initially empty heap, repeatedly reading top() and then calling pop() until
the heap is empty yields exactly the non-decreasing sorted permutation of the
pushed sequence. -/
theorem C1_sorted_drain (cfg : Config) (S : List Int) :
    List.Sorted (· ≤ ·) (DHeap4Simd.drain cfg (DHeap4Simd.pushAll cfg emptyHeap S)) ∧
      (DHeap4Simd.drain cfg (DHeap4Simd.pushAll cfg emptyHeap S)).Perm S := by
  obtain ⟨hheap, hperm⟩ := pushAll_heap_perm cfg S emptyHeap (emptyHeap_heapProp cfg)
  unfold DHeap4Simd.drain
  constructor
  · exact drainGo_sorted cfg _ _ (le_refl _) hheap
  · refine (drainGo_perm cfg _ _ (le_refl _) hheap).trans (hperm.trans ?_)
    simp [emptyHeap]

/-- C2: after any sequence of push and pop operations (and after bulk
construction), the internal key array satisfies the d-ary min-heap property:
for every index i > 0, keys[(i-1)/d] <= keys[i]. -/
theorem C2_heap_invariant (cfg : Config) (h : DHeap4Simd) (hr : Reachable cfg h) :
    ∀ i, i < h.heap_keys_.length → 0 < i →
      h.heap_keys_.getD ((i - 1) / cfg.kD) 0 ≤ h.heap_keys_.getD i 0 := by
  intro i hi hi0
  exact (reachable_inv cfg hr).1 i hi hi0 (by omega)

/-- C2 witness: the heap reached by pushing 5 then 3 satisfies the heap
property at index 1. -/
theorem C2_heap_invariant_witness :
    (DHeap4Simd.push defaultConfig (DHeap4Simd.push defaultConfig emptyHeap 5)
        3).heap_keys_.getD ((1 - 1) / defaultConfig.kD) 0 ≤
      (DHeap4Simd.push defaultConfig (DHeap4Simd.push defaultConfig emptyHeap 5)
        3).heap_keys_.getD 1 0 :=
  C2_heap_invariant defaultConfig _
    (Reachable.push 3 (Reachable.push 5 Reachable.empty)) 1 (by decide) (by decide)

/-- C3: the vectorized child-minimum comparator agrees with the scalar linear
scan on value and tie-broken (lowest) index, and forcing always-vectorize
versus never-vectorize produces identical heap behaviour on every operation
sequence and bulk construction. -/
theorem C3_vector_scalar_equiv :
    (∀ (cfg : Config) (a : Bool) (keys : List Int) (c n : Nat), c < n →
        childMin cfg a keys c n = childMin cfg false keys c n) ∧
      (∀ (cfg : Config) (a : Bool) (keys : List Int) (c n : Nat), c < n →
        IsChampion keys c (min (c + cfg.kD) n) (childMin cfg a keys c n).1
          (childMin cfg a keys c n).2) ∧
      (∀ cfg1 cfg2 : Config, cfg1.kD = cfg2.kD →
        (∀ ops : List Op, runOps cfg1 ops = runOps cfg2 ops) ∧
          (∀ S : List Int, DHeap4Simd.build cfg1 S = DHeap4Simd.build cfg2 S)) := by
  refine ⟨?_, ?_, ?_⟩
  · intro cfg a keys c n hc
    exact childMin_congr cfg cfg rfl a false keys hc
  · intro cfg a keys c n hc
    exact childMin_champion cfg a keys hc
  · intro cfg1 cfg2 hd
    exact ⟨runOps_congr cfg1 cfg2 hd, build_congr cfg1 cfg2 hd⟩

/-- C3 witness: SIMD and scalar comparators agree on a block with a tied
minimum, and the always- and never-vectorize builds agree on a concrete
operation sequence. -/
theorem C3_vector_scalar_equiv_witness :
    childMin defaultConfig true [5, 1, 2, 1, 9] 1 5 =
        childMin defaultConfig false [5, 1, 2, 1, 9] 1 5 ∧
      runOps alwaysConfig [Op.push 3, Op.push 1, Op.pop] =
        runOps neverConfig [Op.push 3, Op.push 1, Op.pop] :=
  ⟨C3_vector_scalar_equiv.1 defaultConfig true [5, 1, 2, 1, 9] 1 5 (by decide),
    (C3_vector_scalar_equiv.2.2 alwaysConfig neverConfig rfl).1
      [Op.push 3, Op.push 1, Op.pop]⟩

/-- C4: top() and pop() on a heap of size 0 fail with the EmptyContainer
condition and perform no mutation: the object state after the failing call is
unchanged (so size() is still 0). -/
theorem C4_empty_error (cfg : Config) (h : DHeap4Simd) (hs : h.size = 0) :
    DHeap4Simd.top h = .error .emptyContainer ∧
      DHeap4Simd.pop cfg h = .error .emptyContainer ∧
      DHeap4Simd.popTotal cfg h = h ∧ (DHeap4Simd.popTotal cfg h).size = 0 := by
  have he : h.empty = true := (empty_iff_size h).mpr hs
  have htop : DHeap4Simd.top h = .error .emptyContainer := by
    unfold DHeap4Simd.top
    rw [if_pos he]
  have hpop : DHeap4Simd.pop cfg h = .error .emptyContainer := by
    unfold DHeap4Simd.pop
    rw [if_pos he]
  have htot : DHeap4Simd.popTotal cfg h = h := by
    unfold DHeap4Simd.popTotal
    rw [hpop]
  exact ⟨htop, hpop, htot, by rw [htot]; exact hs⟩

/-- C4 witness: the failing calls on a freshly constructed heap. -/
theorem C4_empty_error_witness :
    DHeap4Simd.top emptyHeap = .error .emptyContainer ∧
      DHeap4Simd.pop defaultConfig emptyHeap = .error .emptyContainer ∧
      DHeap4Simd.popTotal defaultConfig emptyHeap = emptyHeap ∧
      (DHeap4Simd.popTotal defaultConfig emptyHeap).size = 0 :=
  C4_empty_error defaultConfig emptyHeap (by decide)

/-- C5: bulk-constructing a heap from S and draining it yields the same
output as pushing every element of S individually and draining. -/
theorem C5_build_push_equiv (cfg : Config) (S : List Int) :
    DHeap4Simd.drain cfg (DHeap4Simd.build cfg S) =
      DHeap4Simd.drain cfg (DHeap4Simd.pushAll cfg emptyHeap S) := by
  obtain ⟨-, -, -, -, -, hbperm, hbheap⟩ := build_components cfg S
  obtain ⟨hpheap, hpperm⟩ := pushAll_heap_perm cfg S emptyHeap (emptyHeap_heapProp cfg)
  have hb1 : (DHeap4Simd.drain cfg (DHeap4Simd.build cfg S)).Perm S := by
    unfold DHeap4Simd.drain
    exact (drainGo_perm cfg _ _ (le_refl _) hbheap).trans hbperm
  have hb2 : List.Sorted (· ≤ ·) (DHeap4Simd.drain cfg (DHeap4Simd.build cfg S)) := by
    unfold DHeap4Simd.drain
    exact drainGo_sorted cfg _ _ (le_refl _) hbheap
  have hp1 : (DHeap4Simd.drain cfg (DHeap4Simd.pushAll cfg emptyHeap S)).Perm S := by
    unfold DHeap4Simd.drain
    refine (drainGo_perm cfg _ _ (le_refl _) hpheap).trans (hpperm.trans ?_)
    simp [emptyHeap]
  have hp2 : List.Sorted (· ≤ ·)
      (DHeap4Simd.drain cfg (DHeap4Simd.pushAll cfg emptyHeap S)) := by
    unfold DHeap4Simd.drain
    exact drainGo_sorted cfg _ _ (le_refl _) hpheap
  exact List.eq_of_perm_of_sorted (hb1.trans hp1.symm) hb2 hp2

/-- C6: after k pushes and m pops (m <= k) from an empty heap, size() is
k - m, and empty() is true exactly when size() is 0. -/
theorem C6_size_conservation :
    (∀ (cfg : Config) (S : List Int) (m : Nat), m ≤ S.length →
        ∃ h2, DHeap4Simd.popN cfg m (DHeap4Simd.pushAll cfg emptyHeap S) = .ok h2 ∧
          h2.size = S.length - m) ∧
      (∀ h : DHeap4Simd, h.empty = true ↔ h.size = 0) := by
  constructor
  · intro cfg S m hm
    have hsz : (DHeap4Simd.pushAll cfg emptyHeap S).size = S.length := by
      rw [pushAll_size]
      simp [DHeap4Simd.size, emptyHeap]
    obtain ⟨h2, hh2, hs2⟩ := popN_spec cfg m (DHeap4Simd.pushAll cfg emptyHeap S)
      (by omega)
    exact ⟨h2, hh2, by omega⟩
  · exact empty_iff_size

/-- C6 witness: pushing two keys and popping one leaves size one. -/
theorem C6_size_conservation_witness :
    ∃ h2, DHeap4Simd.popN defaultConfig 1
        (DHeap4Simd.pushAll defaultConfig emptyHeap [4, 7]) = .ok h2 ∧
      h2.size = ([4, 7] : List Int).length - 1 :=
  C6_size_conservation.1 defaultConfig [4, 7] 1 (by decide)

/-- C7: under the hybrid policy in the build phase, the gate admits the
vectorized comparator exactly when the arity reaches the build threshold and
the node index is at or above the depth cutoff size/(arity*arity); without the
gate the comparator is the scalar scan over the clamped child range. -/
theorem C7_hybrid_build_gate (cfg : Config) (hp : cfg.kSimdPolicy = 2) (i n : Nat) :
    (allowSimd cfg true i n = true ↔
        cfg.kBuildMinArity ≤ cfg.kD ∧ i ≤ n / (cfg.kD * cfg.kD)) ∧
      (∀ (keys : List Int) (c : Nat),
        childMin cfg false keys c n = scalarChildMin keys c (min (c + cfg.kD) n)) := by
  constructor
  · unfold allowSimd
    rw [if_neg (by omega), if_pos hp]
    simp
  · intro keys c
    unfold childMin
    rw [if_neg (by simp), if_neg (by simp), if_neg (by simp)]

/-- C7 witness: the gate decision at the root of a 100-element default-arity
heap (arity 4 is below the build threshold 8, so the gate is closed). -/
theorem C7_hybrid_build_gate_witness :
    (allowSimd defaultConfig true 0 100 = true ↔
        defaultConfig.kBuildMinArity ≤ defaultConfig.kD ∧
          0 ≤ 100 / (defaultConfig.kD * defaultConfig.kD)) ∧
      (∀ (keys : List Int) (c : Nat), childMin defaultConfig false keys c 100 =
        scalarChildMin keys c (min (c + defaultConfig.kD) 100)) :=
  C7_hybrid_build_gate defaultConfig rfl 0 100

/-- C8: under the hybrid policy in the pop phase, the gate admits the
vectorized comparator exactly at the root step of a heap whose arity is at
least 16 and whose size is at least the pop threshold. -/
theorem C8_hybrid_pop_gate (cfg : Config) (hp : cfg.kSimdPolicy = 2) (i n : Nat) :
    allowSimd cfg false i n = true ↔
      16 ≤ cfg.kD ∧ i = 0 ∧ cfg.kPopMinSize ≤ n := by
  unfold allowSimd
  rw [if_neg (by omega), if_pos hp]
  simp
  tauto

/-- C8 witness: the pop-phase gate at the root of a 100-element default-arity
heap (arity 4 is below 16, so the gate is closed). -/
theorem C8_hybrid_pop_gate_witness :
    allowSimd defaultConfig false 0 100 = true ↔
      16 ≤ defaultConfig.kD ∧ 0 = 0 ∧ defaultConfig.kPopMinSize ≤ 100 :=
  C8_hybrid_pop_gate defaultConfig rfl 0 100

/-- C10: sift-up and sift-down terminate: the parent map strictly decreases
the index, the first child strictly increases it, and the chosen minimum
child lies strictly between the current index and the heap size. -/
theorem C10_sift_termination :
    (∀ (cfg : Config) (i : Nat), 0 < i → parent cfg i < i) ∧
      (∀ (cfg : Config) (i : Nat), i < first_child cfg i) ∧
      (∀ (cfg : Config) (a : Bool) (keys : List Int) (c n : Nat), c < n →
        c ≤ (childMin cfg a keys c n).1 ∧ (childMin cfg a keys c n).1 < n) := by
  refine ⟨fun cfg i h => parent_lt cfg h, fun cfg i => lt_first_child cfg i, ?_⟩
  intro cfg a keys c n hc
  exact childMin_bounds cfg a keys hc

/-- C10 witness: the termination measures at concrete indices. -/
theorem C10_sift_termination_witness :
    parent defaultConfig 7 < 7 ∧ 7 < first_child defaultConfig 7 ∧
      (1 ≤ (childMin defaultConfig false [3, 1, 2] 1 3).1 ∧
        (childMin defaultConfig false [3, 1, 2] 1 3).1 < 3) :=
  ⟨C10_sift_termination.1 defaultConfig 7 (by decide),
    C10_sift_termination.2.1 defaultConfig 7,
    C10_sift_termination.2.2 defaultConfig false [3, 1, 2] 1 3 (by decide)⟩

end DHeapSimd
